import Mathlib

/-!
Verification of `pycovjson/write.py` (the `Writer` class and its custom
selective-formatting JSON serializer).

The development shallowly embeds the code of `write.py`:

* JSON documents are modelled by the inductive `Json` (numbers are modelled as
  integers; machine floats are outside the model).
* The transient `Custom` formatting wrapper (write.py line 244) extends `Json`
  to `PVal`.
* `json.dumps` with `indent=2` / `separators=(',', ':')` / default separators
  is modelled by the renderer `rJ` over explicit formatting `Mode`s.
* The placeholder pass of `CustomEncoder` (write.py lines 251-270) is modelled
  by `encV` (the `default` hook producing `"@@<key>@@"` placeholder strings and
  a replacement map) and `encodeCustom` (the `encode` override folding
  `str.replace` over the replacement map).  The stream of fresh keys produced
  by `uuid.uuid4().hex` is modelled by a function `ks : Nat → List Char`
  together with a freshness predicate `keysOK`.
* A standard whitespace-insensitive JSON parser is modelled by `pVal`
  (modelled from the spec, which quantifies over "a standard JSON parser";
  the repository contains no parser).
* The parts of the repository referenced by `write.py` but absent from the
  sources (`pycovjson.model` entity classes and the NetCDF reader) are
  modelled from the spec; each such definition is marked in its doc comment.
-/

set_option maxHeartbeats 1000000

/-- Python exception surrogate: the exceptions `write.py` can actually raise in
the modelled paths. -/
inductive PyErr where
  | attributeError (name : String)
  | keyError (name : String)
  | nameError (name : String)
  | typeError (msg : String)
deriving DecidableEq, Repr

/-- JSON documents, as produced by `Coverage.to_dict` and consumed by
`json.dumps`.  Numbers are modelled as integers (the model does not cover
machine floats); objects are insertion-ordered key/value lists, matching
Python `dict` iteration order. -/
inductive Json where
  | null
  | bool (b : Bool)
  | num (n : Int)
  | str (s : String)
  | arr (xs : List Json)
  | obj (kvs : List (String × Json))
deriving Repr

/-- Values passed to `json.dumps(..., cls=CustomEncoder)`: JSON values extended
with the `Custom` marker of write.py line 244.  `compactSep = true` models
`Custom(value, separators=(',', ':'))` (from `Writer.compact`, line 236) and
`compactSep = false` models `Custom(value)` (from `Writer.no_indent`,
line 240).  The payload is plain JSON: the pre-render in
`CustomEncoder.default` calls `json.dumps(o.value)` with the default encoder,
so a nested `Custom` would not serialize. -/
inductive PVal where
  | pnull
  | pbool (b : Bool)
  | pnum (n : Int)
  | pstr (s : String)
  | pcustom (compactSep : Bool) (v : Json)
  | parr (xs : List PVal)
  | pobj (kvs : List (String × PVal))
deriving Repr

mutual

/-- Embed a plain JSON value into the encoder's input type. -/
def Json.toP : Json → PVal
  | .null => .pnull
  | .bool b => .pbool b
  | .num n => .pnum n
  | .str s => .pstr s
  | .arr xs => .parr (Json.toPL xs)
  | .obj kvs => .pobj (Json.toPKV kvs)

def Json.toPL : List Json → List PVal
  | [] => []
  | x :: xs => Json.toP x :: Json.toPL xs

def Json.toPKV : List (String × Json) → List (String × PVal)
  | [] => []
  | (k, v) :: kvs => (k, Json.toP v) :: Json.toPKV kvs

end

mutual

/-- Remove all `Custom` markers, recovering the logical JSON value underneath
(spec section 8: "a structure equal to the original Coverage mapping before
marker-wrapping"). -/
def PVal.strip : PVal → Json
  | .pnull => .null
  | .pbool b => .bool b
  | .pnum n => .num n
  | .pstr s => .str s
  | .pcustom _ v => v
  | .parr xs => .arr (PVal.stripL xs)
  | .pobj kvs => .obj (PVal.stripKV kvs)

def PVal.stripL : List PVal → List Json
  | [] => []
  | x :: xs => PVal.strip x :: PVal.stripL xs

def PVal.stripKV : List (String × PVal) → List (String × Json)
  | [] => []
  | (k, v) :: kvs => (k, PVal.strip v) :: PVal.stripKV kvs

end

/-- Rendered text of the word `null`. -/
def nullChars : List Char := ['n', 'u', 'l', 'l']

/-- Rendered text of the word `true`. -/
def trueChars : List Char := ['t', 'r', 'u', 'e']

/-- Rendered text of the word `false`. -/
def falseChars : List Char := ['f', 'a', 'l', 's', 'e']

/-- Decimal digit character, `repr` style. -/
def digitChar : Nat → Char
  | 0 => '0' | 1 => '1' | 2 => '2' | 3 => '3' | 4 => '4'
  | 5 => '5' | 6 => '6' | 7 => '7' | 8 => '8' | _ => '9'

/-- Decimal digits of a natural number, most significant first (the text
`repr(n)` produces in Python for a nonnegative int). -/
def natDigs (n : Nat) : List Char :=
  if h : n < 10 then [digitChar n]
  else natDigs (n / 10) ++ [digitChar (n % 10)]
decreasing_by exact Nat.div_lt_self (by omega) (by omega)

/-- Text of a Python integer literal, as `json.dumps` emits it. -/
def intChars (n : Int) : List Char :=
  if n < 0 then '-' :: natDigs n.natAbs else natDigs n.natAbs

/-- JSON string escaping for one character.  `json.dumps` escapes `"` and `\`;
for the printable-ASCII strings in the model's envelope no other escape is
produced. -/
def escapeChar (c : Char) : List Char :=
  if c = '"' then ['\\', '"']
  else if c = '\\' then ['\\', '\\']
  else [c]

/-- JSON string literal text for a raw character list. -/
def encChars (s : List Char) : List Char :=
  '"' :: (s.map escapeChar).flatten ++ ['"']

/-- JSON string literal text for a `String`. -/
def encStr (s : String) : List Char :=
  encChars s.data

/-- Formatting mode of one `json.dumps` call:
`ind lvl` is `indent=2` at nesting level `lvl` with separators `(',', ': ')`
(the mode of `save_json(obj, path, indent=2)`, write.py line 202/223);
`compact` is `separators=(',', ':')` with no indent (the `Writer.compact`
pre-render, line 236); `oneline` is `json.dumps` defaults, separators
`(', ', ': ')` with no indent (the `Writer.no_indent` pre-render, line 240). -/
inductive Mode where
  | ind (lvl : Nat)
  | compact
  | oneline
deriving DecidableEq, Repr

/-- Mode used for the members of a container. -/
def childM : Mode → Mode
  | .ind l => .ind (l + 1)
  | m => m

/-- Newline plus `indent * level` spaces, as the indenting serializer emits. -/
def nlInd (l : Nat) : List Char :=
  '\n' :: List.replicate (2 * l) ' '

/-- Text emitted after `[` or `{` before the first member. -/
def openBr : Mode → List Char
  | .ind l => nlInd (l + 1)
  | _ => []

/-- Item separator between members. -/
def sepIt : Mode → List Char
  | .ind l => ',' :: nlInd (l + 1)
  | .compact => [',']
  | .oneline => [',', ' ']

/-- Text emitted after the last member before `]` or `}`. -/
def closeBr : Mode → List Char
  | .ind l => nlInd l
  | _ => []

/-- Key/value separator. -/
def kvSepM : Mode → List Char
  | .compact => [':']
  | _ => [':', ' ']

mutual

/-- Model of `json.dumps` on plain JSON values in a given formatting mode
(this is what the `CustomEncoder.default` pre-render and the base
`JSONEncoder.encode` emit for marker-free values). -/
def rJ : Mode → Json → List Char
  | _, .null => nullChars
  | _, .bool true => trueChars
  | _, .bool false => falseChars
  | _, .num n => intChars n
  | _, .str s => encStr s
  | _, .arr [] => ['[', ']']
  | m, .arr (x :: xs) =>
      '[' :: (openBr m ++ rJ (childM m) x ++ rItems m xs ++ closeBr m ++ [']'])
  | _, .obj [] => ['{', '}']
  | m, .obj (kv :: kvs) =>
      '{' :: (openBr m ++ encStr kv.1 ++ kvSepM m ++ rJ (childM m) kv.2 ++
              rMembers m kvs ++ closeBr m ++ ['}'])

def rItems : Mode → List Json → List Char
  | _, [] => []
  | m, x :: xs => sepIt m ++ rJ (childM m) x ++ rItems m xs

def rMembers : Mode → List (String × Json) → List Char
  | _, [] => []
  | m, kv :: kvs =>
      sepIt m ++ encStr kv.1 ++ kvSepM m ++ rJ (childM m) kv.2 ++ rMembers m kvs

end

/-- Pre-render mode selected by the `Custom` wrapper's arguments:
`separators=(',', ':')` for `compact`, `json.dumps` defaults for `no_indent`. -/
def cmodeOf (compactSep : Bool) : Mode :=
  if compactSep then .compact else .oneline

mutual

/-- The final text of the selective serializer, rendered directly: marker-free
parts use the surrounding mode, and each `Custom`-marked subvalue is rendered
with its own pre-render mode in place.  `encodeCustom` is proved equal to this
below; the source computes it by placeholder substitution. -/
def mrP : Mode → PVal → List Char
  | _, .pnull => nullChars
  | _, .pbool true => trueChars
  | _, .pbool false => falseChars
  | _, .pnum n => intChars n
  | _, .pstr s => encStr s
  | _, .pcustom cpt v => rJ (cmodeOf cpt) v
  | _, .parr [] => ['[', ']']
  | m, .parr (x :: xs) =>
      '[' :: (openBr m ++ mrP (childM m) x ++ mItems m xs ++ closeBr m ++ [']'])
  | _, .pobj [] => ['{', '}']
  | m, .pobj (kv :: kvs) =>
      '{' :: (openBr m ++ encStr kv.1 ++ kvSepM m ++ mrP (childM m) kv.2 ++
              mMembers m kvs ++ closeBr m ++ ['}'])

def mItems : Mode → List PVal → List Char
  | _, [] => []
  | m, x :: xs => sepIt m ++ mrP (childM m) x ++ mItems m xs

def mMembers : Mode → List (String × PVal) → List Char
  | _, [] => []
  | m, kv :: kvs =>
      sepIt m ++ encStr kv.1 ++ kvSepM m ++ mrP (childM m) kv.2 ++ mMembers m kvs

end

/-- The placeholder string `"@@%s@@" % key` built by `CustomEncoder.default`
(write.py line 262). -/
def phOf (k : List Char) : List Char :=
  '@' :: '@' :: (k ++ ['@', '@'])

/-- The quoted pattern `'"@@%s@@"' % key` that `CustomEncoder.encode` searches
for (write.py line 269). -/
def patOf (k : List Char) : List Char :=
  '"' :: (phOf k ++ ['"'])

mutual

/-- Model of the base `JSONEncoder.encode` pass with the `CustomEncoder.default`
hook (write.py lines 258-264): renders the structure in the given mode; each
`Custom` marker consumes the next fresh key `ks i` (modelling
`uuid.uuid4().hex`), contributes the JSON-quoted placeholder string to the
output, and records `(key, json.dumps(o.value, **o.custom_args))` in the
replacement map.  Returns (text, replacement map in insertion order, next key
index). -/
def encV (ks : Nat → List Char) :
    Mode → PVal → Nat → List Char × List (List Char × List Char) × Nat
  | _, .pnull, i => (nullChars, [], i)
  | _, .pbool true, i => (trueChars, [], i)
  | _, .pbool false, i => (falseChars, [], i)
  | _, .pnum n, i => (intChars n, [], i)
  | _, .pstr s, i => (encStr s, [], i)
  | _, .pcustom cpt v, i =>
      (encChars (phOf (ks i)), [(ks i, rJ (cmodeOf cpt) v)], i + 1)
  | _, .parr [], i => (['[', ']'], [], i)
  | m, .parr (x :: xs), i =>
      let a := encV ks (childM m) x i
      let b := encItems ks m xs a.2.2
      ('[' :: (openBr m ++ a.1 ++ b.1 ++ closeBr m ++ [']']),
       a.2.1 ++ b.2.1, b.2.2)
  | _, .pobj [], i => (['{', '}'], [], i)
  | m, .pobj (kv :: kvs), i =>
      let a := encV ks (childM m) kv.2 i
      let b := encMembers ks m kvs a.2.2
      ('{' :: (openBr m ++ encStr kv.1 ++ kvSepM m ++ a.1 ++ b.1 ++
               closeBr m ++ ['}']),
       a.2.1 ++ b.2.1, b.2.2)

def encItems (ks : Nat → List Char) :
    Mode → List PVal → Nat → List Char × List (List Char × List Char) × Nat
  | _, [], i => ([], [], i)
  | m, x :: xs, i =>
      let a := encV ks (childM m) x i
      let b := encItems ks m xs a.2.2
      (sepIt m ++ a.1 ++ b.1, a.2.1 ++ b.2.1, b.2.2)

def encMembers (ks : Nat → List Char) :
    Mode → List (String × PVal) → Nat →
    List Char × List (List Char × List Char) × Nat
  | _, [], i => ([], [], i)
  | m, kv :: kvs, i =>
      let a := encV ks (childM m) kv.2 i
      let b := encMembers ks m kvs a.2.2
      (sepIt m ++ encStr kv.1 ++ kvSepM m ++ a.1 ++ b.1,
       a.2.1 ++ b.2.1, b.2.2)

end

/-- Does the (nonempty) pattern `p0 :: pt` start the character list? -/
def startsWith (p0 : Char) (pt : List Char) : List Char → Bool
  | [] => false
  | c :: t => c == p0 && pt.isPrefixOf t

/-- Fuelled scanner of Python `str.replace(pat, rep)` for the nonempty
pattern `p0 :: pt`: scans left to right, replaces non-overlapping
occurrences, and never rescans replacement text.  The fuel only bounds
recursion depth; `replaceAll` supplies `s.length`, which never runs out. -/
def replaceAllGo (p0 : Char) (pt rep : List Char) : Nat → List Char → List Char
  | _, [] => []
  | 0, s => s
  | fuel + 1, c :: t =>
      if startsWith p0 pt (c :: t) then
        rep ++ replaceAllGo p0 pt rep (fuel - pt.length) (t.drop pt.length)
      else
        c :: replaceAllGo p0 pt rep fuel t

/-- Model of Python `str.replace(pat, rep)` for the nonempty pattern
`p0 :: pt`. -/
def replaceAll (p0 : Char) (pt rep : List Char) (s : List Char) : List Char :=
  replaceAllGo p0 pt rep s.length s

/-- Model of `CustomEncoder.encode` (write.py lines 266-270): run the base
serializer pass at `indent=2` (top level, mode `ind 0`), then fold
`result.replace('"@@%s@@"' % k, v)` over the replacement map in insertion
order. -/
def encodeCustom (ks : Nat → List Char) (v : PVal) : List Char :=
  let a := encV ks (.ind 0) v 0
  a.2.1.foldl
    (fun res kv =>
      match patOf kv.1 with
      | [] => res
      | p0 :: pt => replaceAll p0 pt kv.2 res)
    a.1

mutual

/-- Number of `Custom` markers in a value: the number of fresh uuid keys one
serialization run consumes. -/
def numC : PVal → Nat
  | .pnull | .pbool _ | .pnum _ | .pstr _ => 0
  | .pcustom _ _ => 1
  | .parr xs => numCL xs
  | .pobj kvs => numCKV kvs

def numCL : List PVal → Nat
  | [] => 0
  | x :: xs => numC x + numCL xs

def numCKV : List (String × PVal) → Nat
  | [] => 0
  | kv :: kvs => numC kv.2 + numCKV kvs

end

/-- Characters of a `uuid4().hex` key: lowercase hexadecimal. -/
def keyChar (c : Char) : Bool :=
  ('0' ≤ c && c ≤ '9') || ('a' ≤ c && c ≤ 'f')

/-- Freshness envelope for the first `n` generated keys (modelling
`uuid.uuid4().hex`: 32 lowercase hex characters, pairwise distinct). -/
def keysOK (ks : Nat → List Char) (n : Nat) : Prop :=
  (∀ i, i < n → (ks i).length = 32 ∧ (ks i).all keyChar = true) ∧
  (∀ i j, i < n → j < n → ks i = ks j → i = j)

/-- Whitespace characters the JSON grammar allows between tokens. -/
def wsChar (c : Char) : Bool :=
  c == ' ' || c == '\n' || c == '\t' || c == '\r'

/-- Skip leading JSON whitespace. -/
def skipWs : List Char → List Char
  | [] => []
  | c :: t => if wsChar c then skipWs t else c :: t

/-- Is `c` a decimal digit? -/
def digit? (c : Char) : Bool :=
  '0' ≤ c && c ≤ '9'

/-- Consume a maximal run of digits, accumulating the value. -/
def pDigits : List Char → Nat → Nat × List Char
  | [], acc => (acc, [])
  | c :: t, acc =>
      if digit? c then pDigits t (acc * 10 + (c.toNat - 48)) else (acc, c :: t)

/-- Parse an integer literal (optional minus sign, then at least one digit). -/
def pNum : List Char → Option (Int × List Char)
  | '-' :: c :: t =>
      if digit? c then
        let a := pDigits t (c.toNat - 48)
        some (-(a.1 : Int), a.2)
      else none
  | c :: t =>
      if digit? c then
        let a := pDigits t (c.toNat - 48)
        some ((a.1 : Int), a.2)
      else none
  | [] => none

/-- Unescape the character after a backslash. -/
def unesc (c : Char) : Option Char :=
  if c = '"' then some '"'
  else if c = '\\' then some '\\'
  else none

/-- Parse the body of a string literal (the opening quote already consumed),
returning the unescaped characters and the remainder after the closing
quote. -/
def pStrBody : List Char → Option (List Char × List Char)
  | [] => none
  | '"' :: t => some ([], t)
  | '\\' :: c :: t =>
      match unesc c with
      | some e =>
          match pStrBody t with
          | some (cs, r) => some (e :: cs, r)
          | none => none
      | none => none
  | ['\\'] => none
  | c :: t =>
      match pStrBody t with
      | some (cs, r) => some (c :: cs, r)
      | none => none

mutual

/-- Model of a standard whitespace-insensitive JSON parser (modelled from the
spec, which states the output "round-trips through a standard JSON parser";
the repository itself contains no parser).  Fuel bounds recursion depth;
numbers are integer literals, matching the value model. -/
def pVal : Nat → List Char → Option (Json × List Char)
  | 0, _ => none
  | fuel + 1, s0 =>
      match skipWs s0 with
      | '{' :: r =>
          match skipWs r with
          | '}' :: r1 => some (.obj [], r1)
          | r1 =>
              match pMembers fuel r1 with
              | some (kvs, r2) => some (.obj kvs, r2)
              | none => none
      | '[' :: r =>
          match skipWs r with
          | ']' :: r1 => some (.arr [], r1)
          | r1 =>
              match pItems fuel r1 with
              | some (xs, r2) => some (.arr xs, r2)
              | none => none
      | '"' :: r =>
          match pStrBody r with
          | some (cs, r1) => some (.str (String.mk cs), r1)
          | none => none
      | 't' :: 'r' :: 'u' :: 'e' :: r => some (.bool true, r)
      | 'f' :: 'a' :: 'l' :: 's' :: 'e' :: r => some (.bool false, r)
      | 'n' :: 'u' :: 'l' :: 'l' :: r => some (.null, r)
      | s =>
          match pNum s with
          | some (n, r) => some (.num n, r)
          | none => none

def pItems : Nat → List Char → Option (List Json × List Char)
  | 0, _ => none
  | fuel + 1, s =>
      match pVal fuel s with
      | some (v, r) =>
          match skipWs r with
          | ',' :: r1 =>
              match pItems fuel (skipWs r1) with
              | some (xs, r2) => some (v :: xs, r2)
              | none => none
          | ']' :: r1 => some ([v], r1)
          | _ => none
      | none => none

def pMembers : Nat → List Char → Option (List (String × Json) × List Char)
  | 0, _ => none
  | fuel + 1, s =>
      match s with
      | '"' :: r =>
          match pStrBody r with
          | some (kcs, r1) =>
              match skipWs r1 with
              | ':' :: r2 =>
                  match pVal fuel r2 with
                  | some (v, r3) =>
                      match skipWs r3 with
                      | ',' :: r4 =>
                          match pMembers fuel (skipWs r4) with
                          | some (kvs, r5) =>
                              some ((String.mk kcs, v) :: kvs, r5)
                          | none => none
                      | '}' :: r4 => some ([(String.mk kcs, v)], r4)
                      | _ => none
                  | none => none
              | _ => none
          | none => none
      | _ => none

end

/-! ## The Writer model

`write.py` composes the document from a read-only data source
(`pycovjson.read_netcdf.NetCDFReader`, not part of the sources) and entity
classes (`pycovjson.model`, not part of the sources).  Both are modelled from
the spec below; everything else mirrors `write.py` directly. -/

/-- A written output file: path and text (spec section 6, output sink
interface `write(path, text)`). -/
abbrev FileWrite := String × List Char

/-- Modelled from the spec: per-variable metadata exposed by the data source
interface (spec section 6): standard name, units, long name, dimension/axis
names, shape, numeric type, and the flattened row-major values. -/
structure VarMeta where
  std_name : String
  units : String
  long_name : String
  dims : List String
  shape : List Nat
  dtype : String
  values : List Int
deriving DecidableEq, Repr

/-- Modelled from the spec: the read-only data source (`NetCDFReader`, spec
section 6): axis dictionary, flattened coordinate arrays, and the variable
table. -/
structure Reader where
  axes : List (String × List Int)
  x : List Int
  y : List Int
  z : List Int
  t : List Int
  vars : List (String × VarMeta)

/-- Association-list lookup on variable names. -/
def lookupVar : List (String × VarMeta) → String → Option VarMeta
  | [], _ => none
  | kv :: rest, vr => if kv.1 = vr then some kv.2 else lookupVar rest vr

/-- Access `self.reader.dataset[variable]` and the per-variable accessors: a
variable absent from the data source raises `KeyError` (spec section 7, input
error). -/
def readerVar (r : Reader) (vr : String) : Except PyErr VarMeta :=
  match lookupVar r.vars vr with
  | some m => .ok m
  | none => .error (.keyError vr)

/-- Modelled from the spec: the three reference-system descriptors of
`pycovjson.model` (spec section 3, Reference). -/
inductive RefSys where
  | temporal
  | spatial2d
  | spatial3d
deriving DecidableEq, Repr

/-- The reference list built in `Writer.__init__` (write.py lines 40-49): an
`if` block for `t and z`, then an independent `if`/`elif` pair for
`t and not z` / `not t and not z`. -/
def refListFor (axis_list : List String) : List RefSys :=
  (if axis_list.contains "t" && axis_list.contains "z" then
    [RefSys.temporal, RefSys.spatial3d]
  else [])
  ++
  (if axis_list.contains "t" && !axis_list.contains "z" then
    [RefSys.temporal, RefSys.spatial2d]
  else if !axis_list.contains "t" && !axis_list.contains "z" then
    [RefSys.spatial2d]
  else [])

/-- The `Writer` instance state: the attributes assigned in
`Writer.__init__` (write.py lines 27-54).  The reader itself is passed
explicitly to the methods that use it. -/
structure WriterS where
  output_name : String
  tile_shape : List Nat
  vars_to_write : List String
  url_template : String
  tiled : Bool
  range_type : String
  dataset_path : String
  axis_dict : List (String × List Int)
  axis_list : List String
  ref_list : List RefSys
  endpoint_url : Option String
  covjson_ld : Bool

/-- Model of `Writer.__init__` (write.py lines 15-54). -/
def mkWriter (output_name : String) (dataset_path : String) (r : Reader)
    (vars_to_write : List String) (endpoint_url : Option String)
    (tiled : Bool) (tile_shape : List Nat) (covjson_ld : Bool) : WriterS :=
  ⟨output_name,
   tile_shape,
   vars_to_write,
   "localhost:8080/{t}.covjson",
   tiled,
   if tiled then "TiledNdArray" else "NdArray",
   dataset_path,
   r.axes,
   r.axes.map Prod.fst,
   refListFor (r.axes.map Prod.fst),
   endpoint_url,
   covjson_ld⟩

/-- Attribute names assigned on `self` in `Writer.__init__` (write.py lines
27-54, in order).  `self.<name>` resolves against this set; any other name
raises `AttributeError`. -/
def writerAttrNames : List String :=
  ["output_name", "tile_shape", "vars_to_write", "url_template", "tiled",
   "range_type", "dataset_path", "reader", "axis_dict", "axis_list",
   "ref_list", "endpoint_url", "covjson_ld"]

/-- Python attribute access on a `Writer` instance. -/
def writerGetAttrName (name : String) : Except PyErr Unit :=
  if writerAttrNames.contains name then .ok ()
  else .error (.attributeError name)

/-- Modelled from the spec: the `Parameter` entity (spec section 3). -/
structure ParameterS where
  description : String
  variable_name : String
  symbol : String
  unit : String
  observed_property : String
deriving DecidableEq, Repr

/-- Modelled from the spec: the `Range` entity (spec section 3): NdArray
variant carries `values`, TiledNdArray carries `tile_sets`. -/
structure RangeS where
  range_type : String
  data_type : String
  variable_name : Option String
  axes : List String
  shape : List Nat
  values : List Int
  tile_sets : Option Json

/-- The `Domain` entity as constructed by `Writer._construct_domain`
(write.py lines 77-99). -/
structure DomainS where
  domain_type : String
  x : List Int
  y : List Int
  z : List Int
  t : List Int
deriving DecidableEq, Repr

/-- Model of `Writer._construct_domain` (write.py lines 77-99): x and y are
always read (already flattened in the reader model); t and z only when present
in the axis list. -/
def construct_domain (w : WriterS) (r : Reader) : DomainS :=
  ⟨"Grid",
   r.x,
   r.y,
   if w.axis_list.contains "z" then r.z else [],
   if w.axis_list.contains "t" then r.t else []⟩

/-- Model of the parameter construction for one variable (write.py lines
106-112): description from the standard name, unit from `get_units`, symbol
from `dataset[variable].units` (the same units metadata in the reader model),
label from `long_name`. -/
def mkParam (r : Reader) (vr : String) : Except PyErr ParameterS := do
  let m ← readerVar r vr
  .ok ⟨m.std_name, vr, m.units, m.units, m.long_name⟩

/-- The loop of `Writer._construct_params` (write.py lines 106-112): each
iteration overwrites `params`. -/
def construct_params_loop (r : Reader) :
    List String → Option ParameterS → Except PyErr (Option ParameterS)
  | [], acc => .ok acc
  | vr :: rest, _ => do
      let p ← mkParam r vr
      construct_params_loop r rest (some p)

/-- Model of `Writer._construct_params` (write.py lines 101-114): run the
loop, then `return params`; if the loop body never executed, the name `params`
is unbound and the method raises `NameError`. -/
def construct_params (r : Reader) (vars_to_write : List String) :
    Except PyErr ParameterS := do
  match ← construct_params_loop r vars_to_write none with
  | some p => .ok p
  | none => .error (.nameError "params")

/-- Model of `str.lower` on the ASCII dimension names of the model
envelope. -/
def strLower (s : String) : String :=
  String.mk (s.data.map Char.toLower)

/-- Model of the non-tiled range construction for one variable (write.py
lines 154-163): NdArray range with lower-cased dimension names as axis
names. -/
def mkNdRange (r : Reader) (vr : String) : Except PyErr RangeS := do
  let m ← readerVar r vr
  .ok ⟨"NdArray", m.dtype, some vr, m.dims.map strLower, m.shape,
       m.values, none⟩

/-- Modelled from the spec: `TileSet.get_tiles` (spec section 3, TileSet):
partitions the array one leading-axis (time) step per tile; each tile yields
its flattened values and a per-tile coordinate descriptor. -/
def getTiles (varShape : List Nat) (values : List Int) :
    List (List Int × Json) :=
  let chunk := (varShape.drop 1).prod
  (List.range (varShape.headD 0)).map
    (fun i => ((values.drop (i * chunk)).take chunk,
               Json.obj [("t", Json.num (i : Int))]))

/-- Modelled from the spec: `TileSet.create_tileset` (spec sections 3 and 4.4):
the tile-set index mapping tile shape and URL template. -/
def createTileset (tileShape : List Nat) (urlTemplate : String) : Json :=
  .obj [("tileShape", .arr (tileShape.map fun n => Json.num (n : Int))),
        ("urlTemplate", .str urlTemplate)]

/-- Modelled from the spec: the standalone per-tile range document built at
write.py lines 144-145: `{'ranges': Range('NdArray', ...).to_dict()}` (the
per-tile `Range` is built without a variable name). -/
def mkTileDoc (dtype : String) (varShape : List Nat) (tileAxes : Json)
    (tileValues : List Int) : Json :=
  .obj [("ranges",
    .obj [("null",
      .obj [("type", .str "NdArray"),
            ("dataType", .str dtype),
            ("axisNames", tileAxes),
            ("shape", .arr (varShape.map fun n => Json.num (n : Int))),
            ("values", .arr (tileValues.map Json.num))])])]

/-- Modelled from the spec: `Range.to_dict` (spec sections 3 and 6): a mapping
from the variable name to the range body; the body carries type, data type,
axis names, shape, and either inline values (NdArray) or the tile-set index
(TiledNdArray). -/
def RangeS.toDict (rg : RangeS) : Json :=
  .obj [(match rg.variable_name with | some n => n | none => "null",
    .obj ([("type", .str rg.range_type),
           ("dataType", .str rg.data_type),
           ("axisNames", .arr (rg.axes.map Json.str)),
           ("shape", .arr (rg.shape.map fun n => Json.num (n : Int)))] ++
          (match rg.tile_sets with
           | some ts => [("tileSets", ts)]
           | none => [("values", .arr (rg.values.map Json.num))])))]

/-- Modelled from the spec: `Parameter.to_dict` body (spec section 3). -/
def paramDict (p : ParameterS) : Json :=
  .obj [("type", .str "Parameter"),
        ("description", .str p.description),
        ("unit", .obj [("symbol", .str p.symbol), ("label", .str p.unit)]),
        ("observedProperty", .obj [("label", .str p.observed_property)])]

/-- Modelled from the spec: the reference dictionaries (spec section 3,
Reference: `coordinates` plus a system descriptor). -/
def refDict : RefSys → Json
  | .temporal =>
      .obj [("coordinates", .arr [.str "t"]),
            ("system", .obj [("type", .str "TemporalRS"),
                             ("calendar", .str "Gregorian")])]
  | .spatial2d =>
      .obj [("coordinates", .arr [.str "x", .str "y"]),
            ("system", .obj [("type", .str "GeographicCRS")])]
  | .spatial3d =>
      .obj [("coordinates", .arr [.str "x", .str "y", .str "z"]),
            ("system", .obj [("type", .str "GeographicCRS")])]

/-- Modelled from the spec: one axis entry of `Domain.to_dict` (spec section 3,
Domain: axis key to ordered coordinate values; `_save_covjson` reads each
axis object's `values` field). -/
def axisObj (vals : List Int) : Json :=
  .obj [("values", .arr (vals.map Json.num))]

/-- Modelled from the spec: the axes mapping of `Domain.to_dict` (spec
section 4.1: z and t are present only when populated). -/
def DomainS.axesDict (d : DomainS) : Json :=
  .obj ([("x", axisObj d.x), ("y", axisObj d.y)] ++
        (if d.z.isEmpty then [] else [("z", axisObj d.z)]) ++
        (if d.t.isEmpty then [] else [("t", axisObj d.t)]))

/-- Model of `Writer._construct_refs` (write.py lines 116-123): a trivial
wrapper around the reference list. -/
def construct_refs (w : WriterS) : List RefSys :=
  w.ref_list

/-- Modelled from the spec: `Coverage.to_dict` (spec sections 3 and 6):
top-level `domain` / `parameters` / `ranges`; `_save_covjson` reads the
referencing list at `obj['domain']['referencing']`, so the reference dicts
live inside the domain mapping. -/
def coverageDict (d : DomainS) (rng : RangeS) (p : ParameterS)
    (refs : List RefSys) : Json :=
  .obj [("type", .str "Coverage"),
        ("domain",
          .obj [("type", .str "Domain"),
                ("domainType", .str d.domain_type),
                ("axes", d.axesDict),
                ("referencing", .arr (refs.map refDict))]),
        ("parameters", .obj [(p.variable_name, paramDict p)]),
        ("ranges", rng.toDict)]

/-! ### The selective serializer entry points (write.py lines 187-240) -/

/-- First-match association lookup in a JSON object (`obj[name]` read). -/
def jLookup (k : String) : List (String × Json) → Option Json
  | [] => none
  | kv :: rest => if kv.1 = k then some kv.2 else jLookup k rest

/-- Inject every value of an object into `PVal` unchanged. -/
def toPDict (kvs : List (String × Json)) : List (String × PVal) :=
  kvs.map fun kv => (kv.1, kv.2.toP)

/-- In-place update `obj[name] = v` on a dict whose values are already
`PVal`s (Python dict assignment to an existing key keeps insertion order). -/
def setP (key : String) (nv : PVal) :
    List (String × PVal) → List (String × PVal) :=
  List.map fun kv => if kv.1 = key then (kv.1, nv) else kv

/-- Model of `Writer.compact` applied to one axis object (write.py lines
195-196 with 234-236): `axis['values'] = Custom(axis['values'],
separators=(',', ':'))`; a missing `values` key raises `KeyError`, a non-dict
axis raises `TypeError`. -/
def wrapAxis : Json → Except PyErr PVal
  | .obj kvs =>
      match jLookup "values" kvs with
      | some v => .ok (.pobj (setP "values" (.pcustom true v) (toPDict kvs)))
      | none => .error (.keyError "values")
  | _ => .error (.typeError "axis is not a dict")

/-- Model of `Writer.no_indent` applied to one reference object (write.py
lines 197-198 with 238-240): `ref['coordinates'] = Custom(ref['coordinates'])`. -/
def wrapRef : Json → Except PyErr PVal
  | .obj kvs =>
      match jLookup "coordinates" kvs with
      | some v =>
          .ok (.pobj (setP "coordinates" (.pcustom false v) (toPDict kvs)))
      | none => .error (.keyError "coordinates")
  | _ => .error (.typeError "reference is not a dict")

/-- Model of the range wrapping (write.py lines 199-201 with 229-231):
`no_indent(covrange, 'axisNames', 'shape')` then `compact(covrange,
'values')`, reads before writes, distinct keys. -/
def wrapRange : Json → Except PyErr PVal
  | .obj kvs =>
      match jLookup "axisNames" kvs with
      | some an =>
          match jLookup "shape" kvs with
          | some sh =>
              match jLookup "values" kvs with
              | some vv =>
                  .ok (.pobj
                    (setP "values" (.pcustom true vv)
                      (setP "shape" (.pcustom false sh)
                        (setP "axisNames" (.pcustom false an)
                          (toPDict kvs)))))
              | none => .error (.keyError "values")
          | none => .error (.keyError "shape")
      | none => .error (.keyError "axisNames")
  | _ => .error (.typeError "range is not a dict")

/-- Apply a wrapper to every value of a JSON object (`for x in
obj.values():`), keeping keys and order. -/
def wrapDictVals (f : Json → Except PyErr PVal) :
    List (String × Json) → Except PyErr (List (String × PVal))
  | [] => .ok []
  | kv :: rest => do
      let v' ← f kv.2
      let rest' ← wrapDictVals f rest
      .ok ((kv.1, v') :: rest')

/-- `obj[name]` read with `KeyError` on a missing key. -/
def jLookupE (k : String) (kvs : List (String × Json)) : Except PyErr Json :=
  match jLookup k kvs with
  | some v => .ok v
  | none => .error (.keyError k)

/-- Model of the marker-wrapping phase of `Writer._save_covjson` (write.py
lines 195-201): compact every domain axis's `values`, no-indent every
reference's `coordinates`, no-indent `axisNames`/`shape` and compact `values`
of every range. -/
def wrapCovjson : Json → Except PyErr PVal
  | .obj kvs => do
      let domainJ ← jLookupE "domain" kvs
      match domainJ with
      | .obj dkvs => do
          let axesJ ← jLookupE "axes" dkvs
          match axesJ with
          | .obj akvs => do
              let axes' ← wrapDictVals wrapAxis akvs
              let refsJ ← jLookupE "referencing" dkvs
              match refsJ with
              | .arr refsL => do
                  let refs' ← refsL.mapM wrapRef
                  let rangesJ ← jLookupE "ranges" kvs
                  match rangesJ with
                  | .obj rkvs => do
                      let ranges' ← wrapDictVals wrapRange rkvs
                      let domain' := PVal.pobj
                        (setP "referencing" (.parr refs')
                          (setP "axes" (.pobj axes') (toPDict dkvs)))
                      .ok (.pobj
                        (setP "ranges" (.pobj ranges')
                          (setP "domain" domain' (toPDict kvs))))
                  | _ => .error (.typeError "ranges is not a dict")
              | _ => .error (.typeError "referencing is not a list")
          | _ => .error (.typeError "axes is not a dict")
      | _ => .error (.typeError "domain is not a dict")
  | _ => .error (.typeError "coverage is not a dict")

/-- Model of the marker-wrapping phase of `Writer.save_covjson_tiled`
(write.py lines 212-215): domain axes and referencing only. -/
def wrapTiled : Json → Except PyErr PVal
  | .obj kvs => do
      let domainJ ← jLookupE "domain" kvs
      match domainJ with
      | .obj dkvs => do
          let axesJ ← jLookupE "axes" dkvs
          match axesJ with
          | .obj akvs => do
              let axes' ← wrapDictVals wrapAxis akvs
              let refsJ ← jLookupE "referencing" dkvs
              match refsJ with
              | .arr refsL => do
                  let refs' ← refsL.mapM wrapRef
                  let domain' := PVal.pobj
                    (setP "referencing" (.parr refs')
                      (setP "axes" (.pobj axes') (toPDict dkvs)))
                  .ok (.pobj (setP "domain" domain' (toPDict kvs)))
              | _ => .error (.typeError "referencing is not a list")
          | _ => .error (.typeError "axes is not a dict")
      | _ => .error (.typeError "domain is not a dict")
  | _ => .error (.typeError "coverage is not a dict")

/-- Model of the marker-wrapping phase of `Writer.save_covjson_range`
(write.py lines 228-231): wrap the fields of every range in `obj['ranges']`. -/
def wrapRangesOnly : Json → Except PyErr PVal
  | .obj kvs => do
      let rangesJ ← jLookupE "ranges" kvs
      match rangesJ with
      | .obj rkvs => do
          let ranges' ← wrapDictVals wrapRange rkvs
          .ok (.pobj (setP "ranges" (.pobj ranges') (toPDict kvs)))
      | _ => .error (.typeError "ranges is not a dict")
  | _ => .error (.typeError "obj is not a dict")

/-- Model of `Writer.save_json` (write.py lines 219-226): serialize with the
custom encoder (here at `indent=2`, the only way it is called) and write the
text to the path.  `ks` is the stream of fresh uuid keys this run draws. -/
def save_json (obj : PVal) (ks : Nat → List Char) (path : String) : FileWrite :=
  (path, encodeCustom ks obj)

/-- Model of `Writer._save_covjson` (write.py lines 187-202): wrap, then
`save_json(obj, path, indent=2)`. -/
def save_covjson (cov : Json) (ks : Nat → List Char) (path : String) :
    Except PyErr FileWrite := do
  let wv ← wrapCovjson cov
  .ok (save_json wv ks path)

/-- Model of `Writer.save_covjson_tiled` (write.py lines 204-217). -/
def save_covjson_tiled (cov : Json) (ks : Nat → List Char) (path : String) :
    Except PyErr FileWrite := do
  let wv ← wrapTiled cov
  .ok (save_json wv ks path)

/-- Model of `Writer.save_covjson_range` (write.py lines 228-232). -/
def save_covjson_range (obj : Json) (ks : Nat → List Char) (path : String) :
    Except PyErr FileWrite := do
  let wv ← wrapRangesOnly obj
  .ok (save_json wv ks path)

/-- The fixed JSON-LD context of `Writer._save_json` (write.py lines
174-179). -/
def ldContext : Json :=
  .obj [("dataType", .str "http://schema.org/DataType"),
        ("description", .str "http://schema.org/description"),
        ("domainType", .str "http://schema.org/additionalType"),
        ("type", .str "http://schema.org/additionalType")]

/-- Model of `Writer._save_json` (write.py lines 168-185).  No code in
`write.py` calls this method (`_save_covjson` calls `save_json`, line 202).
If it were called, the guard `if covjson_ld:` (line 173) reads the bare name
`covjson_ld`, which is neither a local variable nor a module global (the
attribute is `self.covjson_ld`), so every call raises `NameError` before the
`ldContext` compaction step can run. -/
def save_json_underscore (_obj : PVal) (_path : String) :
    Except PyErr FileWrite :=
  .error (.nameError "covjson_ld")

/-! ### Range construction and the write entry point -/

/-- Write out the per-tile documents in order (write.py lines 142-146); a
failure aborts the remaining tiles (spec section 4.4 failure policy). -/
def tiledWrites (ks : Nat → List Char) :
    List (String × Json) → List FileWrite × Except PyErr Unit
  | [] => ([], .ok ())
  | (path, obj) :: rest =>
      match save_covjson_range obj ks path with
      | .error e => ([], .error e)
      | .ok fw =>
          let r := tiledWrites ks rest
          (fw :: r.1, r.2)

/-- The loop body of `Writer._construct_range` (write.py lines 130-163).  Both
branches `return` inside the first iteration of `for variable in
self.vars_to_write`, so only the head variable is ever processed; an empty
list falls off the loop and implicitly returns `None`.  Line 133 reads the
variable's metadata (possible `KeyError`) before the `tiled` branch; the tiled
branch then evaluates `TileSet(self.tile_shape, self.urlTemplate)` (line 136),
and `urlTemplate` is not an attribute assigned by `__init__` (the attribute is
`url_template`), so it raises `AttributeError` before any tile is produced.
Returns the tile documents written plus the resulting range (or `None`). -/
def construct_range_go (w : WriterS) (r : Reader) (ks : Nat → List Char) :
    List String → List FileWrite × Except PyErr (Option RangeS)
  | [] => ([], .ok none)
  | vr :: _ =>
      match readerVar r vr with
      | .error e => ([], .error e)
      | .ok m =>
          let axis_names := m.dims.map strLower
          if w.tiled then
            match writerGetAttrName "urlTemplate" with
            | .error e => ([], .error e)
            | .ok _ =>
                let docs := (getTiles m.shape m.values).enum.map
                  (fun it => (toString (it.1 + 1) ++ ".covjson",
                              mkTileDoc m.dtype m.shape it.2.2 it.2.1))
                let ws := tiledWrites ks docs
                match ws.2 with
                | .error e => (ws.1, .error e)
                | .ok _ =>
                    let tileset := createTileset w.tile_shape
                      "localhost:8080/{t}.covjson"
                    (ws.1, .ok (some ⟨"TiledNdArray", m.dtype, some vr,
                                      axis_names, m.shape, [],
                                      some tileset⟩))
          else
            ([], .ok (some ⟨"NdArray", m.dtype, some vr, axis_names, m.shape,
                            m.values, none⟩))

/-- Model of `Writer._construct_range` (write.py lines 125-163). -/
def construct_range (w : WriterS) (r : Reader) (ks : Nat → List Char) :
    List FileWrite × Except PyErr (Option RangeS) :=
  construct_range_go w r ks w.vars_to_write

/-- Model of `Writer._construct_coverage` (write.py lines 68-75): Python
evaluates the constructor arguments left to right — domain, range, params,
refs — then `Coverage(...).to_dict()`.  If the range loop never ran, the
`Coverage` receives `None` for its range and `to_dict` would fail on it; that
branch is unreachable because `_construct_params` raises `NameError` first on
an empty variable list. -/
def construct_coverage (w : WriterS) (r : Reader) (ks : Nat → List Char) :
    List FileWrite × Except PyErr Json :=
  let d := construct_domain w r
  match construct_range w r ks with
  | (ws, .error e) => (ws, .error e)
  | (ws, .ok rng?) =>
      match construct_params r w.vars_to_write with
      | .error e => (ws, .error e)
      | .ok p =>
          match rng? with
          | some rng => (ws, .ok (coverageDict d rng p (construct_refs w)))
          | none => (ws, .error (.attributeError "to_dict"))

/-- Model of `Writer.write` (write.py lines 56-65): construct the coverage,
then save it (tiled or not) to `output_name`.  Returns every file written (in
order) and the final outcome. -/
def Writer_write (w : WriterS) (r : Reader) (ks : Nat → List Char) :
    List FileWrite × Except PyErr Unit :=
  match construct_coverage w r ks with
  | (ws, .error e) => (ws, .error e)
  | (ws, .ok cov) =>
      if w.tiled then
        match save_covjson_tiled cov ks w.output_name with
        | .error e => (ws, .error e)
        | .ok fw => (ws ++ [fw], .ok ())
      else
        match save_covjson cov ks w.output_name with
        | .error e => (ws, .error e)
        | .ok fw => (ws ++ [fw], .ok ())

/-! ## Predicates and measures used by the serializer theorems -/

/-- Character envelope of the model: printable ASCII, and not `@` (the
placeholder alphabet); the `@`-freeness stands in for the probabilistic
freshness of `uuid4` keys against document text. -/
def safeChar (c : Char) : Bool :=
  32 ≤ c.toNat && c.toNat ≤ 126 && c != '@'

/-- Every character of the string is in the model envelope. -/
def safeStr (s : String) : Bool :=
  s.data.all safeChar

/-- No duplicate keys (Python dicts cannot carry duplicates). -/
def nodupKeys : List String → Bool
  | [] => true
  | k :: rest => !(rest.contains k) && nodupKeys rest

mutual

/-- Well-formedness of a document in the model envelope: strings and keys are
safe, objects have no duplicate keys. -/
def safeJ : Json → Bool
  | .null => true
  | .bool _ => true
  | .num _ => true
  | .str s => safeStr s
  | .arr xs => safeJL xs
  | .obj kvs => nodupKeys (kvs.map Prod.fst) && safeJKV kvs

def safeJL : List Json → Bool
  | [] => true
  | x :: xs => safeJ x && safeJL xs

def safeJKV : List (String × Json) → Bool
  | [] => true
  | kv :: kvs => safeStr kv.1 && safeJ kv.2 && safeJKV kvs

end

mutual

/-- Well-formedness of an encoder input value. -/
def safeP : PVal → Bool
  | .pnull => true
  | .pbool _ => true
  | .pnum _ => true
  | .pstr s => safeStr s
  | .pcustom _ v => safeJ v
  | .parr xs => safePL xs
  | .pobj kvs => nodupKeys (kvs.map Prod.fst) && safePKV kvs

def safePL : List PVal → Bool
  | [] => true
  | x :: xs => safeP x && safePL xs

def safePKV : List (String × PVal) → Bool
  | [] => true
  | kv :: kvs => safeStr kv.1 && safeP kv.2 && safePKV kvs

end

/-- The string contains no JSON whitespace characters. -/
def wsFreeStr (s : String) : Bool :=
  s.data.all fun c => !wsChar c

mutual

/-- No string (key or value) of the document contains whitespace. -/
def wsFreeJ : Json → Bool
  | .null => true
  | .bool _ => true
  | .num _ => true
  | .str s => wsFreeStr s
  | .arr xs => wsFreeJL xs
  | .obj kvs => wsFreeJKV kvs

def wsFreeJL : List Json → Bool
  | [] => true
  | x :: xs => wsFreeJ x && wsFreeJL xs

def wsFreeJKV : List (String × Json) → Bool
  | [] => true
  | kv :: kvs => wsFreeStr kv.1 && wsFreeJ kv.2 && wsFreeJKV kvs

end

mutual

/-- Node-count measure of a JSON value (used as parser fuel bound). -/
def jsize : Json → Nat
  | .null => 1
  | .bool _ => 1
  | .num _ => 1
  | .str _ => 1
  | .arr xs => 1 + jsizeL xs
  | .obj kvs => 1 + jsizeKV kvs

def jsizeL : List Json → Nat
  | [] => 0
  | x :: xs => 1 + jsize x + jsizeL xs

def jsizeKV : List (String × Json) → Nat
  | [] => 0
  | kv :: kvs => 1 + jsize kv.2 + jsizeKV kvs

end

mutual

/-- Node-count measure of an encoder input value. -/
def psize : PVal → Nat
  | .pnull => 1
  | .pbool _ => 1
  | .pnum _ => 1
  | .pstr _ => 1
  | .pcustom _ v => 1 + jsize v
  | .parr xs => 1 + psizeL xs
  | .pobj kvs => 1 + psizeKV kvs

def psizeL : List PVal → Nat
  | [] => 0
  | x :: xs => 1 + psize x + psizeL xs

def psizeKV : List (String × PVal) → Nat
  | [] => 0
  | kv :: kvs => 1 + psize kv.2 + psizeKV kvs

end

/-! ## Segment templates

Proof-side decomposition of the base-encoder output: the text is an
alternation of literal chunks and quoted placeholders.  `encV`'s text is the
`segText` flattening, the replacement fold turns it into the `segFill`
flattening. -/

/-- One segment of the base-encoder output. -/
inductive Seg where
  | lit (s : List Char)
  | hole (k : List Char) (pre : List Char)

/-- Text the base encoder emits for the segment (a hole appears as its quoted
placeholder string). -/
def segText : Seg → List Char
  | .lit s => s
  | .hole k _ => encChars (phOf k)

/-- Text after replacement (a hole appears as its pre-rendered value). -/
def segFill : Seg → List Char
  | .lit s => s
  | .hole _ p => p

/-- Flatten a template to the base-encoder text. -/
def tmplText (T : List Seg) : List Char :=
  (T.map segText).flatten

/-- Flatten a template to the final text. -/
def tmplFill (T : List Seg) : List Char :=
  (T.map segFill).flatten

/-- The holes of a template, in order. -/
def holesOf : List Seg → List (List Char × List Char)
  | [] => []
  | .lit _ :: r => holesOf r
  | .hole k p :: r => (k, p) :: holesOf r

/-- Replace the first hole by its pre-rendered text. -/
def fillFirst : List Seg → List Seg
  | [] => []
  | .lit s :: r => .lit s :: fillFirst r
  | .hole _ p :: r => .lit p :: r

/-- The text contains no `@` character. -/
def atFree (s : List Char) : Bool :=
  s.all fun c => c != '@'

/-- The key has the shape of a `uuid4().hex`: 32 hex characters. -/
def keyOKb (k : List Char) : Bool :=
  k.length == 32 && k.all keyChar

/-- Segment well-formedness: literals are `@`-free; holes carry hex keys and
`@`-free pre-rendered text. -/
def segWF : Seg → Bool
  | .lit s => atFree s
  | .hole k p => keyOKb k && atFree p

/-- Keys of the template's holes, in order. -/
def keysOfT : List Seg → List (List Char)
  | [] => []
  | .lit _ :: r => keysOfT r
  | .hole k _ :: r => k :: keysOfT r

/-- No duplicate keys among the holes. -/
def nodupCL : List (List Char) → Bool
  | [] => true
  | k :: r => !(r.contains k) && nodupCL r

/-- Template well-formedness. -/
def tmplWF (T : List Seg) : Bool :=
  T.all segWF && nodupCL (keysOfT T)

mutual

/-- Template decomposition of the base-encoder pass: same traversal as `encV`,
but keeping the literal/hole alternation explicit. -/
def tmplV (ks : Nat → List Char) : Mode → PVal → Nat → List Seg × Nat
  | _, .pnull, i => ([.lit nullChars], i)
  | _, .pbool true, i => ([.lit trueChars], i)
  | _, .pbool false, i => ([.lit falseChars], i)
  | _, .pnum n, i => ([.lit (intChars n)], i)
  | _, .pstr s, i => ([.lit (encStr s)], i)
  | _, .pcustom cpt v, i => ([.hole (ks i) (rJ (cmodeOf cpt) v)], i + 1)
  | _, .parr [], i => ([.lit ['[', ']']], i)
  | m, .parr (x :: xs), i =>
      let a := tmplV ks (childM m) x i
      let b := tmplItems ks m xs a.2
      (.lit ('[' :: openBr m) :: (a.1 ++ b.1 ++ [.lit (closeBr m ++ [']'])]),
       b.2)
  | _, .pobj [], i => ([.lit ['{', '}']], i)
  | m, .pobj (kv :: kvs), i =>
      let a := tmplV ks (childM m) kv.2 i
      let b := tmplMembers ks m kvs a.2
      (.lit ('{' :: (openBr m ++ encStr kv.1 ++ kvSepM m)) ::
         (a.1 ++ b.1 ++ [.lit (closeBr m ++ ['}'])]),
       b.2)

def tmplItems (ks : Nat → List Char) :
    Mode → List PVal → Nat → List Seg × Nat
  | _, [], i => ([], i)
  | m, x :: xs, i =>
      let a := tmplV ks (childM m) x i
      let b := tmplItems ks m xs a.2
      (.lit (sepIt m) :: (a.1 ++ b.1), b.2)

def tmplMembers (ks : Nat → List Char) :
    Mode → List (String × PVal) → Nat → List Seg × Nat
  | _, [], i => ([], i)
  | m, kv :: kvs, i =>
      let a := tmplV ks (childM m) kv.2 i
      let b := tmplMembers ks m kvs a.2
      (.lit (sepIt m ++ encStr kv.1 ++ kvSepM m) :: (a.1 ++ b.1), b.2)

end

/-! ## Concrete fixtures used by the witnesses and counterexamples -/

/-- A deterministic stand-in for the `uuid4().hex` stream: 31 `a`s and one
distinguishing hex digit (fresh and distinct for the first ten keys). -/
def ksDemo (i : Nat) : List Char :=
  List.replicate 31 'a' ++ [digitChar i]

/-- A second, different key stream (for the determinism claim). -/
def ksDemo2 (i : Nat) : List Char :=
  List.replicate 30 'b' ++ ['0', digitChar i]

/-- Metadata of a small 2x2 temperature variable. -/
def metaTemp : VarMeta :=
  ⟨"air_temperature", "K", "Temperature", ["Y", "X"], [2, 2], "float",
   [1, 2, 3, 4]⟩

/-- Metadata of a second variable, distinguishable from `metaTemp`. -/
def metaSalt : VarMeta :=
  ⟨"sea_water_salinity", "psu", "Salinity", ["Y", "X"], [2, 2], "float",
   [5, 6, 7, 8]⟩

/-- A dataset with x and y axes only and one variable. -/
def rXY : Reader :=
  ⟨[("x", [0, 1]), ("y", [0, 1])], [0, 1], [0, 1], [], [],
   [("temp", metaTemp)]⟩

/-- A dataset with x, y and t axes. -/
def rT : Reader :=
  ⟨[("x", [0, 1]), ("y", [0, 1]), ("t", [10])], [0, 1], [0, 1], [], [10],
   [("temp", metaTemp)]⟩

/-- A dataset with x, y, t and z axes. -/
def rTZ : Reader :=
  ⟨[("x", [0, 1]), ("y", [0, 1]), ("t", [10]), ("z", [2])], [0, 1], [0, 1],
   [2], [10], [("temp", metaTemp)]⟩

/-- A dataset with two variables (for the multi-variable claims). -/
def rAB : Reader :=
  ⟨[("x", [0, 1]), ("y", [0, 1])], [0, 1], [0, 1], [], [],
   [("va", metaTemp), ("vb", metaSalt)]⟩

/-- A dataset whose variable declares shape `[2, 2]` but carries only three
values (the shape-mismatch input of the error-handling claim). -/
def rBad : Reader :=
  ⟨[("x", [0, 1]), ("y", [0, 1])], [0, 1], [0, 1], [], [],
   [("v1", ⟨"v", "u", "V", ["Y", "X"], [2, 2], "float", [0, 1, 2]⟩)]⟩

/-- The non-tiled demo writer over `rXY`. -/
def wDemo : WriterS :=
  mkWriter "out.covjson" "data.nc" rXY ["temp"] none false [] false

/-- The non-tiled writer over the two-variable dataset. -/
def wAB : WriterS :=
  mkWriter "out.covjson" "data.nc" rAB ["va", "vb"] none false [] false

/-- The non-tiled writer over the mismatched dataset. -/
def wBad : WriterS :=
  mkWriter "out.covjson" "data.nc" rBad ["v1"] none false [] false

/-- The range the code builds for the mismatched dataset: three values
against a declared shape of `[2, 2]`. -/
def c6Range : RangeS :=
  ⟨"NdArray", "float", some "v1", ["y", "x"], [2, 2], [0, 1, 2], none⟩

/-- A small concrete coverage document (the C1 witness input). -/
def covDemo : Json :=
  coverageDict ⟨"Grid", [0, 1], [0, 1], [], []⟩
    ⟨"NdArray", "float", some "temp", ["y", "x"], [2, 2], [1, 2, 3, 4], none⟩
    ⟨"air_temperature", "temp", "K", "K", "Temperature"⟩
    [RefSys.spatial2d]

/-- A small marker-wrapped value (the determinism witness input). -/
def pDemo : PVal :=
  .pobj [("a", .pcustom true (.arr [.num 1, .num 2])),
         ("b", .pobj [("c", .pcustom false (.arr [.str "x", .num 3])),
                      ("d", .pnum (-7))])]

/-- A whitespace-free value (the compact-format witness input). -/
def jDemo : Json :=
  .obj [("values", .arr [.num 1, .num (-2), .num 3]), ("n", .null)]

/-- Remainder is empty or does not begin with a digit. -/
def restOK : List Char → Bool
  | [] => true
  | c :: _ => !digit? c

/-- First character a rendered JSON value can have. -/
def startChar (c : Char) : Bool :=
  c == '{' || c == '[' || c == '"' || c == 't' || c == 'f' || c == 'n' ||
  c == '-' || digit? c

/-- The tail of the search pattern `'"' :: ptOf k`. -/
def ptOf (k : List Char) : List Char :=
  phOf k ++ ['"']

/-- The text is empty or does not start with `@`. -/
def noAtHead : List Char → Bool
  | [] => true
  | c :: _ => c != '@'

/-- Literal chunks and pre-rendered texts of the segment are `@`-free. -/
def segAtFree : Seg → Bool
  | .lit s => atFree s
  | .hole _ p => atFree p

/-- The text contains no JSON whitespace character. -/
def noWs (s : List Char) : Bool :=
  s.all fun c => !wsChar c

/-- Decidable form of the key-stream envelope `keysOK`, over the finitely
many keys one serialization run draws. -/
def keysOKd (ks : Nat → List Char) (n : Nat) : Bool :=
  ((List.range n).all fun i => keyOKb (ks i)) &&
  nodupCL ((List.range n).map ks)

/-- The wrapped form of the demo coverage (the value `_save_covjson` hands to
`save_json`). -/
def covDemoW : PVal :=
  match wrapCovjson covDemo with
  | .ok w => w
  | .error _ => .pnull

/-! ## Theorems -/

/-- Helper for the parameter-overwrite claim: the `_construct_params` loop
returns the parameter of the last variable whenever every requested variable
is present in the data source. -/
theorem params_loop_last (r : Reader) (vlast : String) :
    ∀ (vars : List String) (acc : Option ParameterS),
      vars.getLast? = some vlast →
      (∀ u ∈ vars, (lookupVar r.vars u).isSome = true) →
      construct_params_loop r vars acc = (mkParam r vlast).map some := by
  intro vars
  induction vars with
  | nil => intro acc h; simp at h
  | cons v rest ih =>
    intro acc hlast hsome
    have hv : (lookupVar r.vars v).isSome = true := hsome v (by simp)
    obtain ⟨mv, hmv⟩ : ∃ mv, readerVar r v = .ok mv := by
      unfold readerVar
      cases hl : lookupVar r.vars v with
      | none => rw [hl] at hv; simp at hv
      | some mv => exact ⟨mv, rfl⟩
    have step : construct_params_loop r (v :: rest) acc =
        construct_params_loop r rest (some ⟨mv.std_name, v, mv.units,
          mv.units, mv.long_name⟩) := by
      simp only [construct_params_loop, mkParam, hmv]
      rfl
    rw [step]
    cases hrest : rest with
    | nil =>
      subst hrest
      simp at hlast
      subst hlast
      simp only [construct_params_loop, mkParam, hmv]
      rfl
    | cons v2 rest2 =>
      rw [← hrest]
      have hlast' : rest.getLast? = some vlast := by
        rw [hrest] at hlast
        rw [List.getLast?_cons_cons] at hlast
        rw [hrest]
        exact hlast
      exact ih _ hlast' (fun u hu => hsome u (by simp; tauto))

/-- C2: the reference list built at `Writer` construction is exactly one
temporal plus one 3D spatial reference when both `t` and `z` axes are present;
one temporal plus one 2D spatial reference when `t` is present without `z`;
one 2D spatial reference when neither is present; and it does not depend on
the list of requested variables. -/
theorem c2_reference_selection (out dsp : String) (r : Reader)
    (vars : List String) (ep : Option String) (tiled : Bool) (ts : List Nat)
    (ld : Bool) :
    (((r.axes.map Prod.fst).contains "t" = true ∧
      (r.axes.map Prod.fst).contains "z" = true →
        (mkWriter out dsp r vars ep tiled ts ld).ref_list =
          [RefSys.temporal, RefSys.spatial3d]) ∧
     ((r.axes.map Prod.fst).contains "t" = true ∧
      (r.axes.map Prod.fst).contains "z" = false →
        (mkWriter out dsp r vars ep tiled ts ld).ref_list =
          [RefSys.temporal, RefSys.spatial2d]) ∧
     ((r.axes.map Prod.fst).contains "t" = false ∧
      (r.axes.map Prod.fst).contains "z" = false →
        (mkWriter out dsp r vars ep tiled ts ld).ref_list =
          [RefSys.spatial2d])) ∧
    ∀ vars', (mkWriter out dsp r vars ep tiled ts ld).ref_list =
      (mkWriter out dsp r vars' ep tiled ts ld).ref_list := by
  refine ⟨⟨?_, ?_, ?_⟩, fun _ => rfl⟩ <;>
    (rintro ⟨h1, h2⟩; simp at h1 h2; simp [mkWriter, refListFor, h1, h2])

/-- Witness for C2: the three axis-set shapes instantiated on concrete
datasets. -/
theorem c2_reference_selection_witness :
    (mkWriter "o" "d" rTZ ["temp"] none false [] false).ref_list =
      [RefSys.temporal, RefSys.spatial3d] ∧
    (mkWriter "o" "d" rT ["temp"] none false [] false).ref_list =
      [RefSys.temporal, RefSys.spatial2d] ∧
    (mkWriter "o" "d" rXY ["temp"] none false [] false).ref_list =
      [RefSys.spatial2d] :=
  ⟨(c2_reference_selection "o" "d" rTZ ["temp"] none false [] false).1.1
     ⟨by rfl, by rfl⟩,
   (c2_reference_selection "o" "d" rT ["temp"] none false [] false).1.2.1
     ⟨by rfl, by rfl⟩,
   (c2_reference_selection "o" "d" rXY ["temp"] none false [] false).1.2.2
     ⟨by rfl, by rfl⟩⟩

/-- C3 (code evaluation): on every tiled write, the range construction
evaluates `TileSet(self.tile_shape, self.urlTemplate)` (write.py line 136)
first; `urlTemplate` is not among the attributes `__init__` assigns (the
attribute is `url_template`, line 30), so the loop raises `AttributeError`
before writing a single tile document — the per-tile writes claimed by the
spec never happen. -/
theorem c3_tiled_attribute_error (out dsp : String) (r : Reader) (vr : String)
    (vs : List String) (m : VarMeta) (ep : Option String) (ts : List Nat)
    (ld : Bool) (ks : Nat → List Char)
    (h : readerVar r vr = .ok m) :
    construct_range (mkWriter out dsp r (vr :: vs) ep true ts ld) r ks =
      ([], .error (.attributeError "urlTemplate")) := by
  simp [construct_range, construct_range_go, mkWriter, h, writerGetAttrName,
        writerAttrNames]

/-- Witness for C3: the tiled writer over the concrete 2x2 dataset writes no
tile and raises `AttributeError`. -/
theorem c3_tiled_attribute_error_witness :
    construct_range
        (mkWriter "out.covjson" "data.nc" rXY ["temp"] none true [2, 2] false)
        rXY ksDemo =
      ([], .error (.attributeError "urlTemplate")) :=
  c3_tiled_attribute_error "out.covjson" "data.nc" rXY "temp" [] metaTemp
    none [2, 2] false ksDemo (by rfl)

/-- C4 counterexample: with two requested variables `va` and `vb`, the
non-tiled range construction returns the range of `va` (the first variable) —
the same result as requesting `[va]` alone — and not the range of `vb` (the
last variable), because both branches of the loop body `return` during the
first iteration.  This refutes the claim that the result reflects the last
variable processed. -/
theorem c4_counterexample :
    (construct_range wAB rAB ksDemo).2 =
      (construct_range_go wAB rAB ksDemo ["va"]).2 ∧
    (construct_range wAB rAB ksDemo).2 ≠
      (construct_range_go wAB rAB ksDemo ["vb"]).2 := by
  constructor
  · rfl
  · simp [construct_range, construct_range_go, wAB, rAB, mkWriter, readerVar,
          lookupVar, metaTemp, metaSalt]

/-- C4 (amended): for every list of two or more requested variables, the
non-tiled range construction returns a Range reflecting only the *first*
variable of `vars_to_write` (the loop returns during its first iteration), so
the result coincides with that for the first variable alone. -/
theorem c4_first_variable_only (out dsp : String) (r : Reader) (vr : String)
    (vs : List String) (ep : Option String) (ts : List Nat) (ld : Bool)
    (ks : Nat → List Char) :
    construct_range (mkWriter out dsp r (vr :: vs) ep false ts ld) r ks =
      construct_range (mkWriter out dsp r [vr] ep false ts ld) r ks := by
  cases hER : readerVar r vr <;>
    simp [construct_range, construct_range_go, mkWriter, hER]

/-- C5: for a non-empty request list whose variables are all present,
`_construct_params` returns the single Parameter built from the metadata of
the last variable; each loop iteration overwrote the previous one. -/
theorem c5_last_variable_params (r : Reader) (vars : List String)
    (vlast : String)
    (hlast : vars.getLast? = some vlast)
    (hvars : ∀ u ∈ vars, (lookupVar r.vars u).isSome = true) :
    construct_params r vars = mkParam r vlast := by
  have hloop := params_loop_last r vlast vars none hlast hvars
  have hvl : vlast ∈ vars := List.mem_of_getLast?_eq_some hlast
  have hv : (lookupVar r.vars vlast).isSome = true := hvars vlast hvl
  obtain ⟨mv, hmv⟩ : ∃ mv, readerVar r vlast = .ok mv := by
    unfold readerVar
    cases hl : lookupVar r.vars vlast with
    | none => rw [hl] at hv; simp at hv
    | some mv => exact ⟨mv, rfl⟩
  unfold construct_params
  rw [hloop]
  simp only [mkParam, hmv]
  rfl

/-- Witness for C5: on the two-variable dataset, the returned parameter is
the one of `vb`, the last variable. -/
theorem c5_last_variable_params_witness :
    construct_params rAB ["va", "vb"] = mkParam rAB "vb" ∧
    mkParam rAB "vb" =
      .ok ⟨"sea_water_salinity", "vb", "psu", "psu", "Salinity"⟩ :=
  ⟨c5_last_variable_params rAB ["va", "vb"] "vb" (by rfl) (by decide),
   by rfl⟩

/-- C6 (code evaluation): on the dataset whose variable declares shape
`[2, 2]` but carries three values, the write operation performs no shape
validation: the range is built with `values` of length 3 against a shape
product of 4, and the document is serialized and written successfully — no
shape-mismatch error is raised, contradicting the claim. -/
theorem c6_no_shape_validation :
    (construct_range wBad rBad ksDemo).2 = .ok (some c6Range) ∧
    c6Range.values.length ≠ c6Range.shape.prod ∧
    (Writer_write wBad rBad ksDemo).2 = .ok () ∧
    (Writer_write wBad rBad ksDemo).1.length = 1 := by
  refine ⟨by rfl, by decide, by rfl, by rfl⟩

/-- C8 (code evaluation): the write path never consults the `covjson_ld`
flag: output with the flag enabled is identical to output with it disabled
(the LD-compaction helper `_save_json` is not called from `write.py`; it
would raise `NameError` on its bare `covjson_ld` guard if it were). -/
theorem c8_ld_flag_ignored (out dsp : String) (r : Reader)
    (vars : List String) (ep : Option String) (tiled : Bool) (ts : List Nat)
    (ks : Nat → List Char) :
    Writer_write (mkWriter out dsp r vars ep tiled ts true) r ks =
      Writer_write (mkWriter out dsp r vars ep tiled ts false) r ks ∧
    ∀ (obj : PVal) (path : String),
      save_json_underscore obj path = .error (.nameError "covjson_ld") :=
  ⟨rfl, fun _ _ => rfl⟩

/-- C9: with an empty `vars_to_write`, `write` raises `NameError` (the
`_construct_params` loop body never runs, so its `params` name is unbound at
the `return`) before any output file is created. -/
theorem c9_empty_vars_error (out dsp : String) (r : Reader)
    (ep : Option String) (tiled : Bool) (ts : List Nat) (ld : Bool)
    (ks : Nat → List Char) :
    Writer_write (mkWriter out dsp r [] ep tiled ts ld) r ks =
      ([], .error (.nameError "params")) := by
  cases tiled <;> rfl

theorem replaceAll_nil (p0 : Char) (pt rep : List Char) :
    replaceAll p0 pt rep [] = [] := by
  simp only [replaceAll, List.length_nil, replaceAllGo]

theorem replaceAll_cons (p0 : Char) (pt rep : List Char) (c : Char)
    (t : List Char) :
    replaceAll p0 pt rep (c :: t) =
      if startsWith p0 pt (c :: t) then
        rep ++ replaceAll p0 pt rep (t.drop pt.length)
      else
        c :: replaceAll p0 pt rep t := by
  simp only [replaceAll, List.length_cons, replaceAllGo, List.length_drop]

theorem wsChar_cases (c : Char) (h : wsChar c = true) :
    c = ' ' ∨ c = '\n' ∨ c = '\t' ∨ c = '\r' := by
  simp [wsChar] at h
  tauto

theorem wsChar_not_start (c : Char) (h : wsChar c = true) :
    startChar c = false := by
  rcases wsChar_cases c h with rfl | rfl | rfl | rfl <;> decide

theorem start_not_ws (c : Char) (h : startChar c = true) : wsChar c = false := by
  cases hw : wsChar c with
  | false => rfl
  | true => rw [wsChar_not_start c hw] at h; exact absurd h (by simp)

theorem skipWs_app (s t : List Char) (h : ∀ c ∈ s, wsChar c = true) :
    skipWs (s ++ t) = skipWs t := by
  induction s with
  | nil => rfl
  | cons c cs ih =>
    have hc : wsChar c = true := h c (by simp)
    simp [skipWs, hc]
    exact ih (fun c hc => h c (by simp [hc]))

theorem skipWs_cons_not_ws (c : Char) (t : List Char) (h : wsChar c = false) :
    skipWs (c :: t) = c :: t := by
  simp [skipWs, h]

theorem nlInd_ws (l : Nat) : ∀ c ∈ nlInd l, wsChar c = true := by
  intro c hc
  rw [nlInd] at hc
  rcases List.mem_cons.mp hc with rfl | hc
  · rfl
  · rcases List.eq_of_mem_replicate hc with rfl
    rfl

theorem openBr_ws (m : Mode) : ∀ c ∈ openBr m, wsChar c = true := by
  cases m with
  | ind l => exact nlInd_ws (l + 1)
  | compact => intro c hc; simp [openBr] at hc
  | oneline => intro c hc; simp [openBr] at hc

theorem closeBr_ws (m : Mode) : ∀ c ∈ closeBr m, wsChar c = true := by
  cases m with
  | ind l => exact nlInd_ws l
  | compact => intro c hc; simp [closeBr] at hc
  | oneline => intro c hc; simp [closeBr] at hc

theorem sepIt_shape (m : Mode) :
    ∃ t, sepIt m = ',' :: t ∧ ∀ c ∈ t, wsChar c = true := by
  cases m with
  | ind l => exact ⟨nlInd (l + 1), rfl, nlInd_ws (l + 1)⟩
  | compact => exact ⟨[], rfl, by simp⟩
  | oneline => exact ⟨[' '], rfl, by intro c hc; simp at hc; subst hc; rfl⟩

theorem kvSepM_shape (m : Mode) :
    ∃ t, kvSepM m = ':' :: t ∧ ∀ c ∈ t, wsChar c = true := by
  cases m with
  | ind l => exact ⟨[' '], rfl, by intro c hc; simp at hc; subst hc; rfl⟩
  | compact => exact ⟨[], rfl, by simp⟩
  | oneline => exact ⟨[' '], rfl, by intro c hc; simp at hc; subst hc; rfl⟩

theorem digitChar_digit (d : Nat) (h : d < 10) :
    digit? (digitChar d) = true := by
  interval_cases d <;> decide

theorem digitChar_val (d : Nat) (h : d < 10) :
    (digitChar d).toNat - 48 = d := by
  interval_cases d <;> decide

theorem natDigs_shape (n : Nat) :
    ∃ d ds, natDigs n = d :: ds ∧ digit? d = true := by
  rw [natDigs]
  by_cases h : n < 10
  · simp [h]
    exact digitChar_digit n h
  · rw [dif_neg h]
    obtain ⟨d, ds, hds, hd⟩ := natDigs_shape (n / 10)
    exact ⟨d, ds ++ [digitChar (n % 10)], by rw [hds]; rfl, hd⟩
termination_by n
decreasing_by exact Nat.div_lt_self (by omega) (by omega)

theorem pDigits_stop (rest : List Char) (acc : Nat) (h : restOK rest = true) :
    pDigits rest acc = (acc, rest) := by
  cases rest with
  | nil => rfl
  | cons c t =>
    simp [restOK] at h
    simp [pDigits, h]

theorem pDigits_natDigs (n : Nat) :
    ∀ (acc : Nat) (rest : List Char),
      pDigits (natDigs n ++ rest) acc =
        pDigits rest (acc * 10 ^ (natDigs n).length + n) := by
  intro acc rest
  rw [natDigs]
  by_cases h : n < 10
  · simp [h, pDigits, digitChar_digit n h, digitChar_val n h]
  · simp only [h, dite_false]
    have hq := pDigits_natDigs (n / 10)
    rw [List.append_assoc]
    rw [hq acc ([digitChar (n % 10)] ++ rest)]
    have h10 : n % 10 < 10 := Nat.mod_lt _ (by omega)
    simp [pDigits, digitChar_digit _ h10, digitChar_val _ h10]
    congr 1
    rw [pow_succ]
    generalize (natDigs (n / 10)).length = L
    conv_rhs => rw [← Nat.div_add_mod n 10]
    ring
termination_by n
decreasing_by exact Nat.div_lt_self (by omega) (by omega)

theorem digit_ne_minus (c : Char) (h : digit? c = true) : c ≠ '-' := by
  intro hc
  subst hc
  revert h
  decide

theorem pNum_intChars (n : Int) (rest : List Char) (hrest : restOK rest = true) :
    pNum (intChars n ++ rest) = some (n, rest) := by
  by_cases hn : n < 0
  · rw [intChars, if_pos hn]
    obtain ⟨d, ds, hds, hd⟩ := natDigs_shape n.natAbs
    have hstep : pDigits (ds ++ rest) (d.toNat - 48) = (n.natAbs, rest) := by
      have h1 : pDigits (natDigs n.natAbs ++ rest) 0 = (n.natAbs, rest) := by
        rw [pDigits_natDigs]
        rw [pDigits_stop rest _ hrest]
        simp
      have h2 : pDigits (natDigs n.natAbs ++ rest) 0 =
          pDigits (ds ++ rest) (d.toNat - 48) := by
        rw [hds]
        simp [pDigits, hd]
      rw [← h2, h1]
    rw [hds]
    show pNum ('-' :: d :: (ds ++ rest)) = some (n, rest)
    simp [pNum, hd, hstep, abs_of_neg hn, neg_neg]
  · rw [intChars, if_neg hn]
    obtain ⟨d, ds, hds, hd⟩ := natDigs_shape n.natAbs
    have hstep : pDigits (ds ++ rest) (d.toNat - 48) = (n.natAbs, rest) := by
      have h1 : pDigits (natDigs n.natAbs ++ rest) 0 = (n.natAbs, rest) := by
        rw [pDigits_natDigs]
        rw [pDigits_stop rest _ hrest]
        simp
      have h2 : pDigits (natDigs n.natAbs ++ rest) 0 =
          pDigits (ds ++ rest) (d.toNat - 48) := by
        rw [hds]
        simp [pDigits, hd]
      rw [← h2, h1]
    rw [hds]
    show pNum (d :: (ds ++ rest)) = some (n, rest)
    have hdm : d ≠ '-' := digit_ne_minus d hd
    simp [pNum, hd, hdm, hstep, abs_of_nonneg (not_lt.mp hn)]

theorem pStrBody_enc (s : List Char) :
    ∀ rest, pStrBody ((s.map escapeChar).flatten ++ '"' :: rest) =
      some (s, rest) := by
  induction s with
  | nil => intro rest; rfl
  | cons c cs ih =>
    intro rest
    by_cases h1 : c = '"'
    · subst h1
      simp only [List.map_cons, List.flatten_cons, escapeChar, if_pos rfl,
        List.append_assoc]
      simp [pStrBody, unesc, ih]
    · by_cases h2 : c = '\\'
      · subst h2
        simp only [List.map_cons, List.flatten_cons, escapeChar,
          List.append_assoc]
        norm_num
        simp [pStrBody, unesc, ih]
      · simp only [List.map_cons, List.flatten_cons, escapeChar, h1, h2,
          if_false, ite_false, List.append_assoc]
        simp [h1, h2, pStrBody, ih]

theorem jsize_pos : ∀ j : Json, 1 ≤ jsize j := by
  intro j
  cases j <;> simp [jsize]

theorem mk_data (s : String) : String.mk s.data = s := by
  cases s
  rfl

theorem digit_not_special (c : Char) (h : digit? c = true) :
    c ≠ '{' ∧ c ≠ '[' ∧ c ≠ '"' ∧ c ≠ 't' ∧ c ≠ 'f' ∧ c ≠ 'n' ∧
    wsChar c = false := by
  refine ⟨?_, ?_, ?_, ?_, ?_, ?_, ?_⟩ <;>
    first
    | (intro he; subst he; exact absurd h (by decide))
    | (cases hw : wsChar c with
       | false => rfl
       | true =>
           rcases wsChar_cases c hw with rfl | rfl | rfl | rfl <;>
             exact absurd h (by decide))

theorem rJ_head (m : Mode) (j : Json) :
    ∃ c t, rJ m j = c :: t ∧ startChar c = true := by
  cases j with
  | null => exact ⟨'n', _, rfl, by decide⟩
  | bool b =>
      cases b with
      | false => exact ⟨'f', _, rfl, by decide⟩
      | true => exact ⟨'t', _, rfl, by decide⟩
  | num n =>
      by_cases hn : n < 0
      · refine ⟨'-', natDigs n.natAbs, ?_, by decide⟩
        simp [rJ, intChars, hn]
      · obtain ⟨d, ds, hds, hd⟩ := natDigs_shape n.natAbs
        refine ⟨d, ds, ?_, by simp [startChar, hd]⟩
        simp [rJ, intChars, hn, hds]
  | str s => exact ⟨'"', _, rfl, by decide⟩
  | arr xs =>
      cases xs with
      | nil => exact ⟨'[', _, rfl, by decide⟩
      | cons x xs => exact ⟨'[', _, rfl, by decide⟩
  | obj kvs =>
      cases kvs with
      | nil => exact ⟨'{', _, rfl, by decide⟩
      | cons kv kvs => exact ⟨'{', _, rfl, by decide⟩

theorem start_ne_close (c : Char) (h : startChar c = true) :
    c ≠ ']' ∧ c ≠ '}' := by
  constructor <;> (intro he; subst he; exact absurd h (by decide))

theorem pVal_numhead (f : Nat) (c : Char) (t : List Char)
    (h : c = '-' ∨ digit? c = true) :
    pVal (f + 1) (c :: t) =
      match pNum (c :: t) with
      | some (n, r) => some (.num n, r)
      | none => none := by
  have hfacts : c ≠ '{' ∧ c ≠ '[' ∧ c ≠ '"' ∧ c ≠ 't' ∧ c ≠ 'f' ∧ c ≠ 'n' ∧
      wsChar c = false := by
    rcases h with rfl | hd
    · exact ⟨by decide, by decide, by decide, by decide, by decide, by decide,
             by decide⟩
    · exact digit_not_special c hd
  obtain ⟨h1, h2, h3, h4, h5, h6, h7⟩ := hfacts
  rw [pVal]
  rw [skipWs_cons_not_ws c t h7]
  split
  next r heq => exact absurd (List.cons.injEq .. ▸ heq) (by simp [h1])
  next r heq => exact absurd (List.cons.injEq .. ▸ heq) (by simp [h2])
  next r heq => exact absurd (List.cons.injEq .. ▸ heq) (by simp [h3])
  next r heq => exact absurd (List.cons.injEq .. ▸ heq) (by simp [h4])
  next r heq => exact absurd (List.cons.injEq .. ▸ heq) (by simp [h5])
  next r heq => exact absurd (List.cons.injEq .. ▸ heq) (by simp [h6])
  next s hne1 hne2 hne3 hne4 hne5 hne6 => rfl

theorem restOK_close_sq (m : Mode) (r : List Char) :
    restOK (closeBr m ++ (']' :: r)) = true := by
  cases m <;> rfl

theorem restOK_close_br (m : Mode) (r : List Char) :
    restOK (closeBr m ++ ('}' :: r)) = true := by
  cases m <;> rfl

theorem restOK_sep (m : Mode) (x : List Char) :
    restOK (sepIt m ++ x) = true := by
  cases m <;> rfl

theorem pVal_ws_lead (g : Nat) (ws x : List Char)
    (h : ∀ c ∈ ws, wsChar c = true) :
    pVal (g + 1) (ws ++ x) = pVal (g + 1) x := by
  rw [pVal, pVal, skipWs_app ws x h]

theorem pVal_lbrack (f : Nat) (r : List Char) :
    pVal (f + 1) ('[' :: r) =
      match skipWs r with
      | ']' :: r1 => some (.arr [], r1)
      | r1 =>
          match pItems f r1 with
          | some (xs, r2) => some (.arr xs, r2)
          | none => none := by
  rw [pVal]
  rw [skipWs_cons_not_ws '[' r (by decide)]
  rfl

theorem pVal_lbrace (f : Nat) (r : List Char) :
    pVal (f + 1) ('{' :: r) =
      match skipWs r with
      | '}' :: r1 => some (.obj [], r1)
      | r1 =>
          match pMembers f r1 with
          | some (kvs, r2) => some (.obj kvs, r2)
          | none => none := by
  rw [pVal]
  rw [skipWs_cons_not_ws '{' r (by decide)]
  rfl

theorem pVal_quote (f : Nat) (r : List Char) :
    pVal (f + 1) ('"' :: r) =
      match pStrBody r with
      | some (cs, r1) => some (.str (String.mk cs), r1)
      | none => none := by
  rw [pVal]
  rw [skipWs_cons_not_ws '"' r (by decide)]
  rfl

theorem pMembers_quote (f : Nat) (r : List Char) :
    pMembers (f + 1) ('"' :: r) =
      match pStrBody r with
      | some (kcs, r1) =>
          match skipWs r1 with
          | ':' :: r2 =>
              match pVal f r2 with
              | some (v, r3) =>
                  match skipWs r3 with
                  | ',' :: r4 =>
                      match pMembers f (skipWs r4) with
                      | some (kvs, r5) => some ((String.mk kcs, v) :: kvs, r5)
                      | none => none
                  | '}' :: r4 => some ([(String.mk kcs, v)], r4)
                  | _ => none
              | none => none
          | _ => none
      | none => none := by
  rw [pMembers]

theorem pItems_last (f : Nat) (s r r1 : List Char) (v : Json)
    (h : pVal f s = some (v, r)) (hsk : skipWs r = ']' :: r1) :
    pItems (f + 1) s = some ([v], r1) := by
  rw [pItems, h]
  try dsimp only
  rw [hsk]
  rfl

theorem pItems_more (f : Nat) (s r r1 r2 : List Char) (v : Json)
    (xs : List Json) (h : pVal f s = some (v, r)) (hsk : skipWs r = ',' :: r1)
    (hrec : pItems f (skipWs r1) = some (xs, r2)) :
    pItems (f + 1) s = some (v :: xs, r2) := by
  rw [pItems, h]
  try dsimp only
  rw [hsk]
  split
  next r1x heq =>
    obtain ⟨-, h2⟩ : ',' = ',' ∧ r1 = r1x := List.cons.injEq .. ▸ heq
    subst h2
    rw [hrec]
  next r1x heq => exact absurd (List.cons.injEq .. ▸ heq) (by simp)
  next hne1 hne2 => exact (hne1 r1 rfl).elim

theorem pVal_arr_go (f : Nat) (r t : List Char) (c : Char) (xs : List Json)
    (r2 : List Char) (hsk : skipWs r = c :: t) (hc : c ≠ ']')
    (hitems : pItems f (c :: t) = some (xs, r2)) :
    pVal (f + 1) ('[' :: r) = some (.arr xs, r2) := by
  rw [pVal_lbrack, hsk]
  split
  next r1 heq => exact absurd (List.cons.injEq .. ▸ heq) (by simp [hc])
  next r1 hne => rw [hitems]

theorem pVal_obj_go (f : Nat) (r t : List Char) (c : Char)
    (kvs : List (String × Json)) (r2 : List Char)
    (hsk : skipWs r = c :: t) (hc : c ≠ '}')
    (hmem : pMembers f (c :: t) = some (kvs, r2)) :
    pVal (f + 1) ('{' :: r) = some (.obj kvs, r2) := by
  rw [pVal_lbrace, hsk]
  split
  next r1 heq => exact absurd (List.cons.injEq .. ▸ heq) (by simp [hc])
  next r1 hne => rw [hmem]

theorem pMembers_last (f : Nat) (r r1 kt r3 r4 : List Char) (kcs : List Char)
    (v : Json) (hb : pStrBody r = some (kcs, r1))
    (h1 : skipWs r1 = ':' :: kt) (hv : pVal f kt = some (v, r3))
    (h2 : skipWs r3 = '}' :: r4) :
    pMembers (f + 1) ('"' :: r) = some ([(String.mk kcs, v)], r4) := by
  rw [pMembers_quote, hb]
  try dsimp only
  rw [h1]
  split
  next r2x heq =>
    obtain ⟨-, h2x⟩ : ':' = ':' ∧ kt = r2x := List.cons.injEq .. ▸ heq
    subst h2x
    rw [hv]
    try dsimp only
    rw [h2]
    rfl
  next hne1 => exact (hne1 kt rfl).elim

theorem pMembers_more (f : Nat) (r r1 kt r3 r4 r5 : List Char)
    (kcs : List Char) (v : Json) (kvs : List (String × Json))
    (hb : pStrBody r = some (kcs, r1)) (h1 : skipWs r1 = ':' :: kt)
    (hv : pVal f kt = some (v, r3)) (h2 : skipWs r3 = ',' :: r4)
    (hrec : pMembers f (skipWs r4) = some (kvs, r5)) :
    pMembers (f + 1) ('"' :: r) = some ((String.mk kcs, v) :: kvs, r5) := by
  rw [pMembers_quote, hb]
  try dsimp only
  rw [h1]
  split
  next r2x heq =>
    obtain ⟨-, h2x⟩ : ':' = ':' ∧ kt = r2x := List.cons.injEq .. ▸ heq
    subst h2x
    rw [hv]
    try dsimp only
    rw [h2]
    split
    next r4x heq2 =>
      obtain ⟨-, h4x⟩ : ',' = ',' ∧ r4 = r4x := List.cons.injEq .. ▸ heq2
      subst h4x
      rw [hrec]
    next r4x heq2 => exact absurd (List.cons.injEq .. ▸ heq2) (by simp)
    next hne1 hne2 => exact (hne1 r4 rfl).elim
  next hne1 => exact (hne1 kt rfl).elim

theorem prt (fuel : Nat) :
    (∀ (m : Mode) (j : Json) (rest : List Char),
        jsize j ≤ fuel → restOK rest = true →
        pVal fuel (rJ m j ++ rest) = some (j, rest)) ∧
    (∀ (m : Mode) (x : Json) (xs : List Json) (rest : List Char),
        1 + jsize x + jsizeL xs ≤ fuel → restOK rest = true →
        pItems fuel
            (rJ (childM m) x ++ (rItems m xs ++ (closeBr m ++ (']' :: rest)))) =
          some (x :: xs, rest)) ∧
    (∀ (m : Mode) (k : String) (v : Json) (kvs : List (String × Json))
        (rest : List Char),
        1 + jsize v + jsizeKV kvs ≤ fuel → restOK rest = true →
        pMembers fuel
            (encStr k ++ (kvSepM m ++ (rJ (childM m) v ++
              (rMembers m kvs ++ (closeBr m ++ ('}' :: rest)))))) =
          some ((k, v) :: kvs, rest)) := by
  induction fuel with
  | zero =>
    refine ⟨?_, ?_, ?_⟩
    · intro m j rest hj _
      have := jsize_pos j
      omega
    · intro m x xs rest hj _
      omega
    · intro m k v kvs rest hj _
      omega
  | succ f ih =>
    obtain ⟨ihA, ihB, ihC⟩ := ih
    refine ⟨?_, ?_, ?_⟩
    · -- values
      intro m j rest hj hrest
      cases j with
      | null =>
        simp only [rJ, nullChars, List.cons_append, List.nil_append]
        rw [pVal]
        rfl
      | bool b =>
        cases b with
        | false =>
          simp only [rJ, falseChars, List.cons_append, List.nil_append]
          rw [pVal]
          rfl
        | true =>
          simp only [rJ, trueChars, List.cons_append, List.nil_append]
          rw [pVal]
          rfl
      | num n =>
        have hhead : ∃ c t, intChars n ++ rest = c :: t ∧
            (c = '-' ∨ digit? c = true) := by
          by_cases hn : n < 0
          · exact ⟨'-', natDigs n.natAbs ++ rest,
              by simp [intChars, hn], Or.inl rfl⟩
          · obtain ⟨d, ds, hds, hd⟩ := natDigs_shape n.natAbs
            exact ⟨d, ds ++ rest, by simp [intChars, hn, hds], Or.inr hd⟩
        obtain ⟨c, t, hct, hc⟩ := hhead
        simp only [rJ]
        rw [hct, pVal_numhead f c t hc, ← hct, pNum_intChars n rest hrest]
      | str s =>
        simp only [rJ, encStr, encChars, List.cons_append, List.append_assoc,
          List.nil_append, List.singleton_append]
        rw [pVal_quote]
        rw [pStrBody_enc s.data rest]
      | arr xs =>
        cases xs with
        | nil =>
          simp only [rJ, List.cons_append, List.nil_append]
          rw [pVal]
          rfl
        | cons x xs' =>
          simp only [rJ, List.cons_append, List.append_assoc, List.nil_append,
            List.singleton_append]
          obtain ⟨c, t, hct, hc⟩ := rJ_head (childM m) x
          apply pVal_arr_go f _
            (t ++ (rItems m xs' ++ (closeBr m ++ (']' :: rest)))) c
            (x :: xs') rest
          · rw [skipWs_app _ _ (openBr_ws m), hct, List.cons_append]
            exact skipWs_cons_not_ws c _ (start_not_ws c hc)
          · exact (start_ne_close c hc).1
          · rw [← List.cons_append, ← hct]
            exact ihB m x xs' rest
              (by simp only [jsize, jsizeL] at hj; omega) hrest
      | obj kvs =>
        cases kvs with
        | nil =>
          simp only [rJ, List.cons_append, List.nil_append]
          rw [pVal]
          rfl
        | cons kv kvs' =>
          obtain ⟨k1, v1⟩ := kv
          simp only [rJ, List.cons_append, List.append_assoc, List.nil_append,
            List.singleton_append]
          apply pVal_obj_go f _
            ((k1.data.map escapeChar).flatten ++ ('"' :: (kvSepM m ++
              (rJ (childM m) v1 ++ (rMembers m kvs' ++
                (closeBr m ++ ('}' :: rest))))))) '"'
            ((k1, v1) :: kvs') rest
          · rw [skipWs_app _ _ (openBr_ws m)]
            simp only [encStr, encChars, List.cons_append, List.append_assoc,
              List.nil_append, List.singleton_append]
            exact skipWs_cons_not_ws '"' _ (by decide)
          · decide
          · have hC := ihC m k1 v1 kvs' rest
              (by simp only [jsize, jsizeKV] at hj; omega) hrest
            simp only [encStr, encChars, List.cons_append, List.append_assoc,
              List.nil_append, List.singleton_append] at hC
            exact hC
    · -- list items
      intro m x xs rest hj hrest
      have hrestTail : restOK (rItems m xs ++ (closeBr m ++ (']' :: rest))) =
          true := by
        cases xs with
        | nil => simpa [rItems] using restOK_close_sq m rest
        | cons y ys =>
          rw [rItems]
          simp only [List.append_assoc]
          exact restOK_sep m _
      have hA : pVal f (rJ (childM m) x ++
          (rItems m xs ++ (closeBr m ++ (']' :: rest)))) =
          some (x, rItems m xs ++ (closeBr m ++ (']' :: rest))) :=
        ihA (childM m) x _ (by omega) hrestTail
      cases xs with
      | nil =>
        apply pItems_last f _ _ rest x hA
        rw [rItems, List.nil_append, skipWs_app _ _ (closeBr_ws m)]
        exact skipWs_cons_not_ws ']' rest (by decide)
      | cons y ys =>
        obtain ⟨st, hst, hstws⟩ := sepIt_shape m
        obtain ⟨c, t, hct, hc⟩ := rJ_head (childM m) y
        apply pItems_more f _ _
          (st ++ (rJ (childM m) y ++ (rItems m ys ++
            (closeBr m ++ (']' :: rest))))) rest x (y :: ys) hA
        · rw [rItems, hst]
          simp only [List.cons_append, List.append_assoc]
          exact skipWs_cons_not_ws ',' _ (by decide)
        · have hskip2 : skipWs (st ++ (rJ (childM m) y ++ (rItems m ys ++
              (closeBr m ++ (']' :: rest))))) =
              rJ (childM m) y ++ (rItems m ys ++
                (closeBr m ++ (']' :: rest))) := by
            rw [skipWs_app _ _ hstws, hct, List.cons_append,
              skipWs_cons_not_ws c _ (start_not_ws c hc), ← List.cons_append,
              ← hct]
          rw [hskip2]
          exact ihB m y ys rest
            (by simp only [jsize, jsizeL] at hj
                have := jsize_pos x
                omega) hrest
    · -- object members
      intro m k v kvs rest hj hrest
      simp only [encStr, encChars, List.cons_append, List.append_assoc,
        List.nil_append, List.singleton_append]
      obtain ⟨kt, hkt, hktws⟩ := kvSepM_shape m
      obtain ⟨g, hg⟩ : ∃ g, f = g + 1 := by
        have := jsize_pos v
        exact ⟨f - 1, by omega⟩
      subst hg
      have hrest3 : restOK (rMembers m kvs ++ (closeBr m ++ ('}' :: rest))) =
          true := by
        cases kvs with
        | nil => simpa [rMembers] using restOK_close_br m rest
        | cons kv2 kvs2 =>
          rw [rMembers]
          simp only [List.append_assoc]
          exact restOK_sep m _
      have hv : pVal (g + 1) (kt ++ (rJ (childM m) v ++ (rMembers m kvs ++
          (closeBr m ++ ('}' :: rest))))) =
          some (v, rMembers m kvs ++ (closeBr m ++ ('}' :: rest))) := by
        rw [pVal_ws_lead g _ _ hktws]
        exact ihA (childM m) v _ (by omega) hrest3
      have h1 : skipWs (kvSepM m ++ (rJ (childM m) v ++ (rMembers m kvs ++
          (closeBr m ++ ('}' :: rest))))) =
          ':' :: (kt ++ (rJ (childM m) v ++ (rMembers m kvs ++
            (closeBr m ++ ('}' :: rest))))) := by
        rw [hkt]
        simp only [List.cons_append]
        exact skipWs_cons_not_ws ':' _ (by decide)
      cases kvs with
      | nil =>
        apply pMembers_last (g + 1) _ _ _ _ rest k.data v
          (pStrBody_enc k.data _) h1 hv
        rw [rMembers, List.nil_append, skipWs_app _ _ (closeBr_ws m)]
        exact skipWs_cons_not_ws '}' rest (by decide)
      | cons kv2 kvs2 =>
        obtain ⟨k2, v2⟩ := kv2
        obtain ⟨st, hst, hstws⟩ := sepIt_shape m
        apply pMembers_more (g + 1) _ _ _ _
          (st ++ (encStr k2 ++ (kvSepM m ++ (rJ (childM m) v2 ++
            (rMembers m kvs2 ++ (closeBr m ++ ('}' :: rest))))))) rest
          k.data v ((k2, v2) :: kvs2)
          (pStrBody_enc k.data _) h1 hv
        · rw [rMembers, hst]
          simp only [List.cons_append, List.append_assoc]
          exact skipWs_cons_not_ws ',' _ (by decide)
        · have hskip2 : skipWs (st ++ (encStr k2 ++ (kvSepM m ++
              (rJ (childM m) v2 ++ (rMembers m kvs2 ++
                (closeBr m ++ ('}' :: rest))))))) =
              encStr k2 ++ (kvSepM m ++ (rJ (childM m) v2 ++
                (rMembers m kvs2 ++ (closeBr m ++ ('}' :: rest))))) := by
            rw [skipWs_app _ _ hstws]
            simp only [encStr, encChars, List.cons_append]
            rw [skipWs_cons_not_ws '"' _ (by decide)]
          rw [hskip2]
          have hC := ihC m k2 v2 kvs2 rest
            (by simp only [jsize, jsizeKV] at hj
                have := jsize_pos v
                omega) hrest
          exact hC

theorem psize_pos : ∀ w : PVal, 1 ≤ psize w := by
  intro w
  cases w <;> simp [psize]

theorem mrP_head (m : Mode) (w : PVal) :
    ∃ c t, mrP m w = c :: t ∧ startChar c = true := by
  cases w with
  | pnull => exact ⟨'n', _, rfl, by decide⟩
  | pbool b =>
      cases b with
      | false => exact ⟨'f', _, rfl, by decide⟩
      | true => exact ⟨'t', _, rfl, by decide⟩
  | pnum n =>
      by_cases hn : n < 0
      · refine ⟨'-', natDigs n.natAbs, ?_, by decide⟩
        simp [mrP, intChars, hn]
      · obtain ⟨d, ds, hds, hd⟩ := natDigs_shape n.natAbs
        refine ⟨d, ds, ?_, by simp [startChar, hd]⟩
        simp [mrP, intChars, hn, hds]
  | pstr s => exact ⟨'"', _, rfl, by decide⟩
  | pcustom cpt v =>
      obtain ⟨c, t, hct, hc⟩ := rJ_head (cmodeOf cpt) v
      exact ⟨c, t, by simp [mrP, hct], hc⟩
  | parr xs =>
      cases xs with
      | nil => exact ⟨'[', _, rfl, by decide⟩
      | cons x xs => exact ⟨'[', _, rfl, by decide⟩
  | pobj kvs =>
      cases kvs with
      | nil => exact ⟨'{', _, rfl, by decide⟩
      | cons kv kvs => exact ⟨'{', _, rfl, by decide⟩

theorem prtP (fuel : Nat) :
    (∀ (m : Mode) (w : PVal) (rest : List Char),
        psize w ≤ fuel → restOK rest = true →
        pVal fuel (mrP m w ++ rest) = some (PVal.strip w, rest)) ∧
    (∀ (m : Mode) (x : PVal) (xs : List PVal) (rest : List Char),
        1 + psize x + psizeL xs ≤ fuel → restOK rest = true →
        pItems fuel
            (mrP (childM m) x ++ (mItems m xs ++ (closeBr m ++ (']' :: rest)))) =
          some (PVal.strip x :: PVal.stripL xs, rest)) ∧
    (∀ (m : Mode) (k : String) (v : PVal) (kvs : List (String × PVal))
        (rest : List Char),
        1 + psize v + psizeKV kvs ≤ fuel → restOK rest = true →
        pMembers fuel
            (encStr k ++ (kvSepM m ++ (mrP (childM m) v ++
              (mMembers m kvs ++ (closeBr m ++ ('}' :: rest)))))) =
          some ((k, PVal.strip v) :: PVal.stripKV kvs, rest)) := by
  induction fuel with
  | zero =>
    refine ⟨?_, ?_, ?_⟩
    · intro m w rest hw _
      have := psize_pos w
      omega
    · intro m x xs rest hw _
      omega
    · intro m k v kvs rest hw _
      omega
  | succ f ih =>
    obtain ⟨ihA, ihB, ihC⟩ := ih
    refine ⟨?_, ?_, ?_⟩
    · -- values
      intro m w rest hw hrest
      cases w with
      | pnull =>
        simp only [mrP, nullChars, List.cons_append, List.nil_append]
        rw [pVal]
        rfl
      | pbool b =>
        cases b with
        | false =>
          simp only [mrP, falseChars, List.cons_append, List.nil_append]
          rw [pVal]
          rfl
        | true =>
          simp only [mrP, trueChars, List.cons_append, List.nil_append]
          rw [pVal]
          rfl
      | pnum n =>
        have hhead : ∃ c t, intChars n ++ rest = c :: t ∧
            (c = '-' ∨ digit? c = true) := by
          by_cases hn : n < 0
          · exact ⟨'-', natDigs n.natAbs ++ rest,
              by simp [intChars, hn], Or.inl rfl⟩
          · obtain ⟨d, ds, hds, hd⟩ := natDigs_shape n.natAbs
            exact ⟨d, ds ++ rest, by simp [intChars, hn, hds], Or.inr hd⟩
        obtain ⟨c, t, hct, hc⟩ := hhead
        simp only [mrP]
        rw [hct, pVal_numhead f c t hc, ← hct, pNum_intChars n rest hrest]
        rfl
      | pstr s =>
        simp only [mrP, encStr, encChars, List.cons_append, List.append_assoc,
          List.nil_append, List.singleton_append]
        rw [pVal_quote]
        rw [pStrBody_enc s.data rest]
        rfl
      | pcustom cpt v =>
        simp only [mrP, PVal.strip]
        exact (prt (f + 1)).1 (cmodeOf cpt) v rest
          (by simp only [psize] at hw; omega) hrest
      | parr xs =>
        cases xs with
        | nil =>
          simp only [mrP, List.cons_append, List.nil_append]
          rw [pVal]
          rfl
        | cons x xs' =>
          simp only [mrP, List.cons_append, List.append_assoc, List.nil_append,
            List.singleton_append]
          obtain ⟨c, t, hct, hc⟩ := mrP_head (childM m) x
          apply pVal_arr_go f _
            (t ++ (mItems m xs' ++ (closeBr m ++ (']' :: rest)))) c
            (PVal.strip x :: PVal.stripL xs') rest
          · rw [skipWs_app _ _ (openBr_ws m), hct, List.cons_append]
            exact skipWs_cons_not_ws c _ (start_not_ws c hc)
          · exact (start_ne_close c hc).1
          · rw [← List.cons_append, ← hct]
            exact ihB m x xs' rest
              (by simp only [psize, psizeL] at hw; omega) hrest
      | pobj kvs =>
        cases kvs with
        | nil =>
          simp only [mrP, List.cons_append, List.nil_append]
          rw [pVal]
          rfl
        | cons kv kvs' =>
          obtain ⟨k1, v1⟩ := kv
          simp only [mrP, List.cons_append, List.append_assoc, List.nil_append,
            List.singleton_append]
          apply pVal_obj_go f _
            ((k1.data.map escapeChar).flatten ++ ('"' :: (kvSepM m ++
              (mrP (childM m) v1 ++ (mMembers m kvs' ++
                (closeBr m ++ ('}' :: rest))))))) '"'
            ((k1, PVal.strip v1) :: PVal.stripKV kvs') rest
          · rw [skipWs_app _ _ (openBr_ws m)]
            simp only [encStr, encChars, List.cons_append, List.append_assoc,
              List.nil_append, List.singleton_append]
            exact skipWs_cons_not_ws '"' _ (by decide)
          · decide
          · have hC := ihC m k1 v1 kvs' rest
              (by simp only [psize, psizeKV] at hw; omega) hrest
            simp only [encStr, encChars, List.cons_append, List.append_assoc,
              List.nil_append, List.singleton_append] at hC
            exact hC
    · -- list items
      intro m x xs rest hw hrest
      have hrestTail : restOK (mItems m xs ++ (closeBr m ++ (']' :: rest))) =
          true := by
        cases xs with
        | nil => simpa [mItems] using restOK_close_sq m rest
        | cons y ys =>
          rw [mItems]
          simp only [List.append_assoc]
          exact restOK_sep m _
      have hA : pVal f (mrP (childM m) x ++
          (mItems m xs ++ (closeBr m ++ (']' :: rest)))) =
          some (PVal.strip x, mItems m xs ++ (closeBr m ++ (']' :: rest))) :=
        ihA (childM m) x _ (by omega) hrestTail
      cases xs with
      | nil =>
        apply pItems_last f _ _ rest (PVal.strip x) hA
        rw [mItems, List.nil_append, skipWs_app _ _ (closeBr_ws m)]
        exact skipWs_cons_not_ws ']' rest (by decide)
      | cons y ys =>
        obtain ⟨st, hst, hstws⟩ := sepIt_shape m
        obtain ⟨c, t, hct, hc⟩ := mrP_head (childM m) y
        apply pItems_more f _ _
          (st ++ (mrP (childM m) y ++ (mItems m ys ++
            (closeBr m ++ (']' :: rest))))) rest (PVal.strip x)
          (PVal.strip y :: PVal.stripL ys) hA
        · rw [mItems, hst]
          simp only [List.cons_append, List.append_assoc]
          exact skipWs_cons_not_ws ',' _ (by decide)
        · have hskip2 : skipWs (st ++ (mrP (childM m) y ++ (mItems m ys ++
              (closeBr m ++ (']' :: rest))))) =
              mrP (childM m) y ++ (mItems m ys ++
                (closeBr m ++ (']' :: rest))) := by
            rw [skipWs_app _ _ hstws, hct, List.cons_append,
              skipWs_cons_not_ws c _ (start_not_ws c hc), ← List.cons_append,
              ← hct]
          rw [hskip2]
          exact ihB m y ys rest
            (by simp only [psize, psizeL] at hw
                have := psize_pos x
                omega) hrest
    · -- object members
      intro m k v kvs rest hw hrest
      simp only [encStr, encChars, List.cons_append, List.append_assoc,
        List.nil_append, List.singleton_append]
      obtain ⟨kt, hkt, hktws⟩ := kvSepM_shape m
      obtain ⟨g, hg⟩ : ∃ g, f = g + 1 := by
        have := psize_pos v
        exact ⟨f - 1, by omega⟩
      subst hg
      have hrest3 : restOK (mMembers m kvs ++ (closeBr m ++ ('}' :: rest))) =
          true := by
        cases kvs with
        | nil => simpa [mMembers] using restOK_close_br m rest
        | cons kv2 kvs2 =>
          rw [mMembers]
          simp only [List.append_assoc]
          exact restOK_sep m _
      have hv : pVal (g + 1) (kt ++ (mrP (childM m) v ++ (mMembers m kvs ++
          (closeBr m ++ ('}' :: rest))))) =
          some (PVal.strip v, mMembers m kvs ++ (closeBr m ++ ('}' :: rest))) := by
        rw [pVal_ws_lead g _ _ hktws]
        exact ihA (childM m) v _ (by omega) hrest3
      have h1 : skipWs (kvSepM m ++ (mrP (childM m) v ++ (mMembers m kvs ++
          (closeBr m ++ ('}' :: rest))))) =
          ':' :: (kt ++ (mrP (childM m) v ++ (mMembers m kvs ++
            (closeBr m ++ ('}' :: rest))))) := by
        rw [hkt]
        simp only [List.cons_append]
        exact skipWs_cons_not_ws ':' _ (by decide)
      cases kvs with
      | nil =>
        apply pMembers_last (g + 1) _ _ _ _ rest k.data (PVal.strip v)
          (pStrBody_enc k.data _) h1 hv
        rw [mMembers, List.nil_append, skipWs_app _ _ (closeBr_ws m)]
        exact skipWs_cons_not_ws '}' rest (by decide)
      | cons kv2 kvs2 =>
        obtain ⟨k2, v2⟩ := kv2
        obtain ⟨st, hst, hstws⟩ := sepIt_shape m
        apply pMembers_more (g + 1) _ _ _ _
          (st ++ (encStr k2 ++ (kvSepM m ++ (mrP (childM m) v2 ++
            (mMembers m kvs2 ++ (closeBr m ++ ('}' :: rest))))))) rest
          k.data (PVal.strip v) ((k2, PVal.strip v2) :: PVal.stripKV kvs2)
          (pStrBody_enc k.data _) h1 hv
        · rw [mMembers, hst]
          simp only [List.cons_append, List.append_assoc]
          exact skipWs_cons_not_ws ',' _ (by decide)
        · have hskip2 : skipWs (st ++ (encStr k2 ++ (kvSepM m ++
              (mrP (childM m) v2 ++ (mMembers m kvs2 ++
                (closeBr m ++ ('}' :: rest))))))) =
              encStr k2 ++ (kvSepM m ++ (mrP (childM m) v2 ++
                (mMembers m kvs2 ++ (closeBr m ++ ('}' :: rest))))) := by
            rw [skipWs_app _ _ hstws]
            simp only [encStr, encChars, List.cons_append]
            rw [skipWs_cons_not_ws '"' _ (by decide)]
          rw [hskip2]
          have hC := ihC m k2 v2 kvs2 rest
            (by simp only [psize, psizeKV] at hw
                have := psize_pos v
                omega) hrest
          exact hC

theorem tmplText_nil : tmplText [] = [] := rfl

theorem tmplText_cons (s : Seg) (T : List Seg) :
    tmplText (s :: T) = segText s ++ tmplText T := by
  simp [tmplText]

theorem tmplText_append (S T : List Seg) :
    tmplText (S ++ T) = tmplText S ++ tmplText T := by
  simp [tmplText]

theorem tmplFill_nil : tmplFill [] = [] := rfl

theorem tmplFill_cons (s : Seg) (T : List Seg) :
    tmplFill (s :: T) = segFill s ++ tmplFill T := by
  simp [tmplFill]

theorem tmplFill_append (S T : List Seg) :
    tmplFill (S ++ T) = tmplFill S ++ tmplFill T := by
  simp [tmplFill]

theorem holesOf_append (S T : List Seg) :
    holesOf (S ++ T) = holesOf S ++ holesOf T := by
  induction S with
  | nil => rfl
  | cons s S ih =>
    cases s with
    | lit s0 => simp [holesOf, ih]
    | hole k p => simp [holesOf, ih]

theorem keysOfT_append (S T : List Seg) :
    keysOfT (S ++ T) = keysOfT S ++ keysOfT T := by
  induction S with
  | nil => rfl
  | cons s S ih =>
    cases s with
    | lit s0 => simp [keysOfT, ih]
    | hole k p => simp [keysOfT, ih]

theorem atFree_append (a b : List Char) :
    atFree (a ++ b) = (atFree a && atFree b) := by
  simp [atFree]

theorem patOf_eq (k : List Char) : patOf k = '"' :: ptOf k := rfl

theorem isPrefixOf_append_self (p t : List Char) :
    p.isPrefixOf (p ++ t) = true := by
  induction p with
  | nil => simp
  | cons c p ih => simp [List.isPrefixOf, ih]

theorem isPrefixOf_at_head (x : List Char)
    (hx : x = [] ∨ ∃ c t, x = c :: t ∧ c ≠ '@') (pt : List Char) :
    (('@' :: pt).isPrefixOf x) = false := by
  rcases hx with rfl | ⟨c, t, rfl, hc⟩
  · rfl
  · simp [List.isPrefixOf]
    intro h
    exact absurd h.symm hc

theorem eqlen_isPrefixOf (k : List Char) :
    ∀ (k' x y : List Char), k.length = k'.length →
      ((k ++ x).isPrefixOf (k' ++ y)) = true → k = k' := by
  induction k with
  | nil =>
    intro k' x y hl _
    cases k' with
    | nil => rfl
    | cons a b => simp at hl
  | cons c k ih =>
    intro k' x y hl hp
    cases k' with
    | nil => simp at hl
    | cons c' k'2 =>
      simp only [List.cons_append, List.isPrefixOf, Bool.and_eq_true,
        beq_iff_eq] at hp
      simp only [List.length_cons] at hl
      rw [hp.1, ih k'2 x y (by omega) hp.2]

theorem keyChar_props (c : Char) (h : keyChar c = true) :
    c ≠ '"' ∧ c ≠ '\\' ∧ c ≠ '@' := by
  refine ⟨?_, ?_, ?_⟩ <;> (intro he; subst he; exact absurd h (by decide))

theorem ptOf_head (k : List Char) :
    ∃ pt', ptOf k = '@' :: pt' := by
  exact ⟨'@' :: ((k ++ ['@', '@']) ++ ['"']), rfl⟩

theorem noAtHead_cases (s t : List Char) (hs : atFree s = true)
    (ht : noAtHead t = true) :
    s ++ t = [] ∨ ∃ c t', s ++ t = c :: t' ∧ c ≠ '@' := by
  cases s with
  | nil =>
    cases t with
    | nil => exact Or.inl rfl
    | cons c t' =>
      refine Or.inr ⟨c, t', rfl, ?_⟩
      simp [noAtHead] at ht
      exact ht
  | cons c s' =>
    refine Or.inr ⟨c, s' ++ t, rfl, ?_⟩
    simp [atFree] at hs
    exact hs.1

theorem repl_pass_noquote (k R : List Char) :
    ∀ s t, (∀ c ∈ s, c ≠ '"') →
      replaceAll '"' (ptOf k) R (s ++ t) = s ++ replaceAll '"' (ptOf k) R t := by
  intro s
  induction s with
  | nil => intro t _; rfl
  | cons c s' ih =>
    intro t hs
    have hc : c ≠ '"' := hs c (by simp)
    rw [List.cons_append, replaceAll_cons]
    have hsw : startsWith '"' (ptOf k) (c :: (s' ++ t)) = false := by
      simp [startsWith, hc]
    rw [hsw]
    simp only [Bool.false_eq_true, if_false]
    rw [ih t (fun c hc2 => hs c (by simp [hc2]))]
    rfl

theorem repl_pass_atfree (k R : List Char) :
    ∀ s t, atFree s = true → noAtHead t = true →
      replaceAll '"' (ptOf k) R (s ++ t) = s ++ replaceAll '"' (ptOf k) R t := by
  intro s
  induction s with
  | nil => intro t _ _; rfl
  | cons c s' ih =>
    intro t hs ht
    have hs' : atFree s' = true := by
      simp [atFree] at hs ⊢
      exact hs.2
    rw [List.cons_append, replaceAll_cons]
    have hsw : startsWith '"' (ptOf k) (c :: (s' ++ t)) = false := by
      by_cases hc : c = '"'
      · subst hc
        obtain ⟨pt', hpt⟩ := ptOf_head k
        simp only [startsWith, hpt]
        rw [isPrefixOf_at_head (s' ++ t) (noAtHead_cases s' t hs' ht) pt']
        simp
      · simp [startsWith, hc]
    rw [hsw]
    simp only [Bool.false_eq_true, if_false]
    rw [ih t hs' ht]
    rfl

theorem repl_match (k R t : List Char) :
    replaceAll '"' (ptOf k) R (patOf k ++ t) = R ++ replaceAll '"' (ptOf k) R t := by
  rw [patOf_eq, List.cons_append, replaceAll_cons]
  have hsw : startsWith '"' (ptOf k) ('"' :: (ptOf k ++ t)) = true := by
    simp [startsWith, isPrefixOf_append_self]
  rw [hsw]
  simp only [if_true]
  rw [List.drop_left]

theorem phOf_noquote (k : List Char) (hk : k.all keyChar = true) :
    ∀ c ∈ phOf k, c ≠ '"' := by
  intro c hc
  simp only [phOf, List.mem_cons, List.mem_append] at hc
  rcases hc with rfl | rfl | hc | hc
  · decide
  · decide
  · simp [List.all_eq_true] at hk
    exact (keyChar_props c (hk c hc)).1
  · simp at hc
    rcases hc with rfl | rfl <;> decide

theorem repl_pass_hole (k k' R t : List Char) (hk : keyOKb k = true)
    (hk' : keyOKb k' = true) (hne : k ≠ k') (ht : noAtHead t = true) :
    replaceAll '"' (ptOf k) R (patOf k' ++ t) =
      patOf k' ++ replaceAll '"' (ptOf k) R t := by
  have hlen : k.length = k'.length := by
    simp [keyOKb] at hk hk'
    omega
  have hk'chars : k'.all keyChar = true := by
    simp only [keyOKb, Bool.and_eq_true] at hk'
    exact hk'.2
  rw [patOf_eq, List.cons_append, replaceAll_cons]
  have hsw : startsWith '"' (ptOf k) ('"' :: (ptOf k' ++ t)) = false := by
    simp only [startsWith, beq_self_eq_true, Bool.true_and]
    cases hpre : (ptOf k).isPrefixOf (ptOf k' ++ t) with
    | false => rfl
    | true =>
      exfalso
      apply hne
      have hshape : ptOf k = ('@' :: '@' :: k) ++ ['@', '@', '"'] := by
        simp [ptOf, phOf]
      have hshape' : ptOf k' ++ t = ('@' :: '@' :: k') ++ (['@', '@', '"'] ++ t) := by
        simp [ptOf, phOf]
      rw [hshape, hshape'] at hpre
      have := eqlen_isPrefixOf ('@' :: '@' :: k) ('@' :: '@' :: k') _ _
        (by simp [hlen]) hpre
      simpa using this
  rw [hsw]
  simp only [Bool.false_eq_true, if_false]
  have hmid : replaceAll '"' (ptOf k) R (phOf k' ++ ('"' :: t)) =
      phOf k' ++ replaceAll '"' (ptOf k) R ('"' :: t) :=
    repl_pass_noquote k R (phOf k') ('"' :: t) (phOf_noquote k' hk'chars)
  have hlast : replaceAll '"' (ptOf k) R ('"' :: t) =
      '"' :: replaceAll '"' (ptOf k) R t := by
    rw [replaceAll_cons]
    obtain ⟨pt', hpt⟩ := ptOf_head k
    have hsw2 : startsWith '"' (ptOf k) ('"' :: t) = false := by
      simp only [startsWith, beq_self_eq_true, Bool.true_and, hpt]
      rw [isPrefixOf_at_head t ?side pt']
      · cases t with
        | nil => exact Or.inl rfl
        | cons c t2 =>
          refine Or.inr ⟨c, t2, rfl, ?_⟩
          simp [noAtHead] at ht
          exact ht
    rw [hsw2]
    simp
  have hassoc : ptOf k' ++ t = phOf k' ++ ('"' :: t) := by
    simp [ptOf]
  rw [hassoc, hmid, hlast]
  simp [patOf, ptOf]

theorem join_map_escape_id :
    ∀ s : List Char, (∀ c ∈ s, escapeChar c = [c]) →
      (s.map escapeChar).flatten = s := by
  intro s
  induction s with
  | nil => intro _; rfl
  | cons c s' ih =>
    intro h
    have ih2 := ih (fun c hc => h c (by simp [hc]))
    simp only [List.map_cons, List.flatten_cons] at ih2 ⊢
    rw [h c (by simp), ih2]
    rfl

theorem enc_ph (k : List Char) (hk : k.all keyChar = true) :
    encChars (phOf k) = patOf k := by
  have hesc : ∀ c ∈ phOf k, escapeChar c = [c] := by
    intro c hc
    have hq : c ≠ '"' := phOf_noquote k hk c hc
    have hb : c ≠ '\\' := by
      simp only [phOf, List.mem_cons, List.mem_append] at hc
      rcases hc with rfl | rfl | hc | hc
      · decide
      · decide
      · simp [List.all_eq_true] at hk
        exact (keyChar_props c (hk c hc)).2.1
      · simp at hc
        rcases hc with rfl | rfl <;> decide
    simp [escapeChar, hq, hb]
  rw [encChars, join_map_escape_id (phOf k) hesc]
  rfl

theorem tmpl_noAtHead :
    ∀ T : List Seg, T.all segAtFree = true → noAtHead (tmplText T) = true := by
  intro T
  induction T with
  | nil => intro _; rfl
  | cons sg T' ih =>
    intro h
    simp only [List.all_cons, Bool.and_eq_true] at h
    cases sg with
    | lit s =>
      cases s with
      | nil =>
        rw [tmplText_cons]
        exact ih h.2
      | cons c s' =>
        rw [tmplText_cons]
        have hc : c ≠ '@' := by
          have := h.1
          simp [segAtFree, atFree] at this
          exact this.1
        simp [segText, noAtHead, hc]
    | hole k p =>
      rw [tmplText_cons]
      simp [segText, encChars, noAtHead]

theorem noholes_text_fill :
    ∀ T : List Seg, holesOf T = [] → tmplText T = tmplFill T := by
  intro T
  induction T with
  | nil => intro _; rfl
  | cons sg T' ih =>
    intro h
    cases sg with
    | lit s =>
      rw [tmplText_cons, tmplFill_cons]
      rw [holesOf] at h
      rw [ih h]
      rfl
    | hole k p => simp [holesOf] at h

theorem repl_nop (k R : List Char) (hk : keyOKb k = true) :
    ∀ T : List Seg, T.all segAtFree = true →
      (∀ k2 ∈ keysOfT T, keyOKb k2 = true ∧ k2 ≠ k) →
      replaceAll '"' (ptOf k) R (tmplText T) = tmplText T := by
  intro T
  induction T with
  | nil => intro _ _; rw [tmplText_nil, replaceAll_nil]
  | cons sg T' ih =>
    intro hfree hkeys
    simp only [List.all_cons, Bool.and_eq_true] at hfree
    cases sg with
    | lit s =>
      rw [tmplText_cons]
      have hstep := repl_pass_atfree k R s (tmplText T')
        (by simpa [segAtFree] using hfree.1) (tmpl_noAtHead T' hfree.2)
      rw [segText] at *
      rw [hstep, ih hfree.2 (fun k2 hk2 => hkeys k2 (by simp [keysOfT, hk2]))]
    | hole k' p =>
      rw [tmplText_cons]
      have hk' : keyOKb k' = true ∧ k' ≠ k := hkeys k' (by simp [keysOfT])
      have hk'chars : k'.all keyChar = true := by
        simp only [keyOKb, Bool.and_eq_true] at hk'
        exact hk'.1.2
      rw [segText, enc_ph k' hk'chars]
      have hstep := repl_pass_hole k k' R (tmplText T') hk hk'.1
        (fun he => hk'.2 he.symm) (tmpl_noAtHead T' hfree.2)
      rw [hstep, ih hfree.2 (fun k2 hk2 => hkeys k2 (by simp [keysOfT, hk2]))]

theorem keys_eq_map_holes :
    ∀ T : List Seg, keysOfT T = (holesOf T).map Prod.fst := by
  intro T
  induction T with
  | nil => rfl
  | cons sg T' ih =>
    cases sg with
    | lit s => simp [keysOfT, holesOf, ih]
    | hole k p => simp [keysOfT, holesOf, ih]

theorem fillFirst_props :
    ∀ (T : List Seg) (k p : List Char) (hs : List (List Char × List Char)),
      holesOf T = (k, p) :: hs →
      holesOf (fillFirst T) = hs ∧
      tmplFill (fillFirst T) = tmplFill T ∧
      (T.all segAtFree = true → (fillFirst T).all segAtFree = true) := by
  intro T
  induction T with
  | nil => intro k p hs h; simp [holesOf] at h
  | cons sg T' ih =>
    intro k p hs h
    cases sg with
    | lit s =>
      rw [holesOf] at h
      obtain ⟨h1, h2, h3⟩ := ih k p hs h
      refine ⟨?_, ?_, ?_⟩
      · simp [fillFirst, holesOf, h1]
      · simp only [fillFirst, tmplFill_cons, h2]
      · intro hall
        simp only [List.all_cons, Bool.and_eq_true] at hall
        simp only [fillFirst, List.all_cons, Bool.and_eq_true]
        exact ⟨hall.1, h3 hall.2⟩
    | hole k0 p0 =>
      rw [holesOf] at h
      injection h with hkp hrest
      injection hkp with hk1 hp1
      subst hk1
      subst hp1
      refine ⟨?_, ?_, ?_⟩
      · simp [fillFirst, holesOf, hrest]
      · simp [fillFirst, tmplFill_cons, segFill]
      · intro hall
        simp only [List.all_cons, Bool.and_eq_true] at hall
        simp only [fillFirst, List.all_cons, Bool.and_eq_true]
        refine ⟨?_, hall.2⟩
        simpa [segAtFree] using hall.1

theorem repl_step :
    ∀ (T : List Seg) (k p : List Char)
      (hs : List (List Char × List Char)),
      T.all segAtFree = true →
      (∀ k2 ∈ keysOfT T, keyOKb k2 = true) →
      nodupCL (keysOfT T) = true →
      holesOf T = (k, p) :: hs →
      replaceAll '"' (ptOf k) p (tmplText T) = tmplText (fillFirst T) := by
  intro T
  induction T with
  | nil => intro k p hs _ _ _ h; simp [holesOf] at h
  | cons sg T' ih =>
    intro k p hs hfree hkeys hnodup h
    simp only [List.all_cons, Bool.and_eq_true] at hfree
    cases sg with
    | lit s =>
      rw [holesOf] at h
      rw [fillFirst, tmplText_cons, tmplText_cons]
      have hstep := repl_pass_atfree k p s (tmplText T')
        (by simpa [segAtFree] using hfree.1) (tmpl_noAtHead T' hfree.2)
      rw [segText] at *
      rw [hstep]
      rw [ih k p hs hfree.2
        (fun k2 hk2 => hkeys k2 (by simp [keysOfT, hk2]))
        (by simpa [keysOfT] using hnodup) h]
    | hole k0 p0 =>
      rw [holesOf] at h
      injection h with hkp hrest
      injection hkp with hk1 hp1
      subst hk1
      subst hp1
      have hk : keyOKb k0 = true := hkeys k0 (by simp [keysOfT])
      have hkchars : k0.all keyChar = true := by
        simp only [keyOKb, Bool.and_eq_true] at hk
        exact hk.2
      rw [fillFirst, tmplText_cons, tmplText_cons, segText, segText,
        enc_ph k0 hkchars, repl_match]
      congr 1
      apply repl_nop k0 p0 hk T' hfree.2
      intro k2 hk2
      refine ⟨hkeys k2 (by simp [keysOfT, hk2]), ?_⟩
      intro he
      subst he
      simp only [keysOfT, nodupCL, Bool.and_eq_true] at hnodup
      have := hnodup.1
      simp at this
      exact this hk2

theorem repl_fold :
    ∀ (hs : List (List Char × List Char)) (T : List Seg),
      holesOf T = hs →
      T.all segAtFree = true →
      (∀ k2 ∈ keysOfT T, keyOKb k2 = true) →
      nodupCL (keysOfT T) = true →
      hs.foldl
        (fun res kv =>
          match patOf kv.1 with
          | [] => res
          | p0 :: pt => replaceAll p0 pt kv.2 res)
        (tmplText T) = tmplFill T := by
  intro hs
  induction hs with
  | nil =>
    intro T hT _ _ _
    simp only [List.foldl_nil]
    exact noholes_text_fill T hT
  | cons kp hs' ih =>
    intro T hT hfree hkeys hnodup
    obtain ⟨k, p⟩ := kp
    simp only [List.foldl_cons]
    have hred : (match patOf k with
        | [] => tmplText T
        | p0 :: pt => replaceAll p0 pt p (tmplText T)) =
        replaceAll '"' (ptOf k) p (tmplText T) := rfl
    rw [hred, repl_step T k p hs' hfree hkeys hnodup hT]
    obtain ⟨h1, h2, h3⟩ := fillFirst_props T k p hs' hT
    rw [← h2]
    apply ih (fillFirst T) h1 (h3 hfree)
    · intro k2 hk2
      apply hkeys
      rw [keys_eq_map_holes] at hk2 ⊢
      rw [hT, h1] at *
      simp only [hT, List.map_cons]
      rw [h1] at hk2
      simp [hk2]
    · rw [keys_eq_map_holes, h1]
      rw [keys_eq_map_holes, hT] at hnodup
      simp only [List.map_cons, nodupCL, Bool.and_eq_true] at hnodup
      exact hnodup.2

theorem digitChar_isdigit : ∀ d : Nat, digit? (digitChar d) = true := by
  intro d
  unfold digitChar
  split <;> decide

theorem digit_ne_at (c : Char) (h : digit? c = true) : c ≠ '@' := by
  intro he
  subst he
  exact absurd h (by decide)

theorem atFree_natDigs (n : Nat) : atFree (natDigs n) = true := by
  rw [natDigs]
  by_cases h : n < 10
  · simp only [h, dite_true]
    simp [atFree, digit_ne_at _ (digitChar_isdigit n)]
  · simp only [h, dite_false]
    rw [atFree_append]
    rw [atFree_natDigs (n / 10)]
    simp [atFree, digit_ne_at _ (digitChar_isdigit (n % 10))]
termination_by n
decreasing_by exact Nat.div_lt_self (by omega) (by omega)

theorem atFree_intChars (n : Int) : atFree (intChars n) = true := by
  rw [intChars]
  by_cases h : n < 0
  · simp only [h, if_true]
    have hn := atFree_natDigs n.natAbs
    simp only [atFree, List.all_cons, Bool.and_eq_true] at hn ⊢
    exact ⟨by decide, hn⟩
  · simp only [h, if_false]
    exact atFree_natDigs n.natAbs

theorem safeChar_ne_at (c : Char) (h : safeChar c = true) : c ≠ '@' := by
  simp [safeChar] at h
  exact h.2

theorem atFree_encStr (s : String) (h : safeStr s = true) :
    atFree (encStr s) = true := by
  rw [encStr, encChars]
  simp only [atFree, List.all_eq_true]
  intro c hc
  simp only [List.mem_cons, List.mem_append] at hc
  rcases hc with (rfl | hc) | hc
  · decide
  · simp only [List.mem_flatten, List.mem_map] at hc
    obtain ⟨l, ⟨c0, hc0, rfl⟩, hcl⟩ := hc
    have hs : safeChar c0 = true := by
      simp only [safeStr, List.all_eq_true] at h
      exact h c0 hc0
    by_cases h1 : c0 = '"'
    · subst h1
      simp [escapeChar] at hcl
      rcases hcl with rfl | rfl <;> decide
    · by_cases h2 : c0 = '\\'
      · subst h2
        simp [escapeChar, h1] at hcl
        rcases hcl with rfl | rfl <;> decide
      · simp [escapeChar, h1, h2] at hcl
        subst hcl
        simpa using safeChar_ne_at _ hs
  · rcases hc with rfl | hc
    · decide
    · simp at hc

theorem atFree_nlInd (l : Nat) : atFree (nlInd l) = true := by
  simp only [nlInd, atFree, List.all_cons, Bool.and_eq_true]
  constructor
  · decide
  · simp only [List.all_eq_true]
    intro c hc
    rcases List.eq_of_mem_replicate hc with rfl
    decide

theorem atFree_openBr (m : Mode) : atFree (openBr m) = true := by
  cases m with
  | ind l => exact atFree_nlInd (l + 1)
  | compact => rfl
  | oneline => rfl

theorem atFree_closeBr (m : Mode) : atFree (closeBr m) = true := by
  cases m with
  | ind l => exact atFree_nlInd l
  | compact => rfl
  | oneline => rfl

theorem atFree_sepIt (m : Mode) : atFree (sepIt m) = true := by
  cases m with
  | ind l =>
    simp only [sepIt, atFree, List.all_cons, Bool.and_eq_true]
    exact ⟨by decide, by rw [← atFree]; exact atFree_nlInd (l + 1)⟩
  | compact => rfl
  | oneline => rfl

theorem atFree_kvSepM (m : Mode) : atFree (kvSepM m) = true := by
  cases m <;> rfl

theorem tmplFill_mrP (ks : Nat → List Char) :
    ∀ n : Nat,
      (∀ (m : Mode) (w : PVal) (i : Nat), psize w ≤ n →
        tmplFill (tmplV ks m w i).1 = mrP m w) ∧
      (∀ (m : Mode) (xs : List PVal) (i : Nat), psizeL xs ≤ n →
        tmplFill (tmplItems ks m xs i).1 = mItems m xs) ∧
      (∀ (m : Mode) (kvs : List (String × PVal)) (i : Nat), psizeKV kvs ≤ n →
        tmplFill (tmplMembers ks m kvs i).1 = mMembers m kvs) := by
  intro n
  induction n with
  | zero =>
    refine ⟨?_, ?_, ?_⟩
    · intro m w i hw
      have := psize_pos w
      omega
    · intro m xs i hx
      cases xs with
      | nil => rfl
      | cons x xs' => simp [psizeL] at hx
    · intro m kvs i hk
      cases kvs with
      | nil => rfl
      | cons kv kvs' => simp [psizeKV] at hk
  | succ n ih =>
    obtain ⟨ihV, ihI, ihM⟩ := ih
    refine ⟨?_, ?_, ?_⟩
    · intro m w i hw
      cases w with
      | pnull => simp [tmplV, tmplFill, segFill, mrP]
      | pbool b => cases b <;> simp [tmplV, tmplFill, segFill, mrP]
      | pnum v => simp [tmplV, tmplFill, segFill, mrP]
      | pstr s => simp [tmplV, tmplFill, segFill, mrP]
      | pcustom cpt v => simp [tmplV, tmplFill, segFill, mrP]
      | parr xs =>
        cases xs with
        | nil => simp [tmplV, tmplFill, segFill, mrP]
        | cons x xs' =>
          simp only [tmplV, mrP]
          rw [tmplFill_cons, tmplFill_append, tmplFill_append]
          rw [ihV (childM m) x i (by simp [psize, psizeL] at hw; omega)]
          rw [ihI m xs' _ (by simp [psize, psizeL] at hw; omega)]
          simp [tmplFill, segFill]
      | pobj kvs =>
        cases kvs with
        | nil => simp [tmplV, tmplFill, segFill, mrP]
        | cons kv kvs' =>
          simp only [tmplV, mrP]
          rw [tmplFill_cons, tmplFill_append, tmplFill_append]
          rw [ihV (childM m) kv.2 i (by simp [psize, psizeKV] at hw; omega)]
          rw [ihM m kvs' _ (by simp [psize, psizeKV] at hw; omega)]
          simp [tmplFill, segFill]
    · intro m xs i hx
      cases xs with
      | nil => rfl
      | cons x xs' =>
        simp only [tmplItems, mItems]
        rw [tmplFill_cons, tmplFill_append]
        rw [ihV (childM m) x i (by simp [psizeL] at hx; omega)]
        rw [ihI m xs' _ (by simp [psizeL] at hx; omega)]
        simp [segFill]
    · intro m kvs i hk
      cases kvs with
      | nil => rfl
      | cons kv kvs' =>
        simp only [tmplMembers, mMembers]
        rw [tmplFill_cons, tmplFill_append]
        rw [ihV (childM m) kv.2 i (by simp [psizeKV] at hk; omega)]
        rw [ihM m kvs' _ (by simp [psizeKV] at hk; omega)]
        simp [segFill, List.append_assoc]

theorem atFree_cons (c : Char) (t : List Char) :
    atFree (c :: t) = ((c != '@') && atFree t) := by
  simp [atFree]

theorem atFree_nil : atFree [] = true := rfl

theorem rJ_atFree :
    ∀ n : Nat,
      (∀ (m : Mode) (j : Json), jsize j ≤ n → safeJ j = true →
        atFree (rJ m j) = true) ∧
      (∀ (m : Mode) (xs : List Json), jsizeL xs ≤ n → safeJL xs = true →
        atFree (rItems m xs) = true) ∧
      (∀ (m : Mode) (kvs : List (String × Json)), jsizeKV kvs ≤ n →
        safeJKV kvs = true → atFree (rMembers m kvs) = true) := by
  intro n
  induction n with
  | zero =>
    refine ⟨?_, ?_, ?_⟩
    · intro m j hj _
      have := jsize_pos j
      omega
    · intro m xs hx _
      cases xs with
      | nil => rfl
      | cons x xs' => simp [jsizeL] at hx
    · intro m kvs hk _
      cases kvs with
      | nil => rfl
      | cons kv kvs' => simp [jsizeKV] at hk
  | succ n ih =>
    obtain ⟨ihJ, ihI, ihM⟩ := ih
    refine ⟨?_, ?_, ?_⟩
    · intro m j hj hsafe
      cases j with
      | null => rfl
      | bool b => cases b <;> rfl
      | num v => exact atFree_intChars v
      | str s => exact atFree_encStr s hsafe
      | arr xs =>
        cases xs with
        | nil => rfl
        | cons x xs' =>
          simp only [safeJ, safeJL, Bool.and_eq_true] at hsafe
          simp [rJ, atFree_cons, atFree_append, atFree_nil, atFree_openBr, atFree_closeBr,
            ihJ (childM m) x (by simp [jsize, jsizeL] at hj; omega) hsafe.1,
            ihI m xs' (by simp [jsize, jsizeL] at hj; omega) hsafe.2]
      | obj kvs =>
        cases kvs with
        | nil => rfl
        | cons kv kvs' =>
          simp only [safeJ, safeJKV, Bool.and_eq_true] at hsafe
          simp [rJ, atFree_cons, atFree_append, atFree_nil, atFree_openBr, atFree_closeBr,
            atFree_kvSepM, atFree_encStr kv.1 hsafe.2.1.1,
            ihJ (childM m) kv.2 (by simp [jsize, jsizeKV] at hj; omega)
              hsafe.2.1.2,
            ihM m kvs' (by simp [jsize, jsizeKV] at hj; omega) hsafe.2.2]
    · intro m xs hx hsafe
      cases xs with
      | nil => rfl
      | cons x xs' =>
        simp only [safeJL, Bool.and_eq_true] at hsafe
        simp [rItems, atFree_append, atFree_sepIt,
          ihJ (childM m) x (by simp [jsizeL] at hx; omega) hsafe.1,
          ihI m xs' (by simp [jsizeL] at hx; omega) hsafe.2]
    · intro m kvs hk hsafe
      cases kvs with
      | nil => rfl
      | cons kv kvs' =>
        simp only [safeJKV, Bool.and_eq_true] at hsafe
        simp [rMembers, atFree_append, atFree_sepIt, atFree_kvSepM,
          atFree_encStr kv.1 hsafe.1.1,
          ihJ (childM m) kv.2 (by simp [jsizeKV] at hk; omega) hsafe.1.2,
          ihM m kvs' (by simp [jsizeKV] at hk; omega) hsafe.2]

theorem encV_tmpl (ks : Nat → List Char) :
    ∀ n : Nat,
      (∀ (m : Mode) (w : PVal) (i : Nat), psize w ≤ n →
        encV ks m w i =
          (tmplText (tmplV ks m w i).1, holesOf (tmplV ks m w i).1,
           (tmplV ks m w i).2)) ∧
      (∀ (m : Mode) (xs : List PVal) (i : Nat), psizeL xs ≤ n →
        encItems ks m xs i =
          (tmplText (tmplItems ks m xs i).1, holesOf (tmplItems ks m xs i).1,
           (tmplItems ks m xs i).2)) ∧
      (∀ (m : Mode) (kvs : List (String × PVal)) (i : Nat), psizeKV kvs ≤ n →
        encMembers ks m kvs i =
          (tmplText (tmplMembers ks m kvs i).1,
           holesOf (tmplMembers ks m kvs i).1,
           (tmplMembers ks m kvs i).2)) := by
  intro n
  induction n with
  | zero =>
    refine ⟨?_, ?_, ?_⟩
    · intro m w i hw
      have := psize_pos w
      omega
    · intro m xs i hx
      cases xs with
      | nil => rfl
      | cons x xs' => simp [psizeL] at hx
    · intro m kvs i hk
      cases kvs with
      | nil => rfl
      | cons kv kvs' => simp [psizeKV] at hk
  | succ n ih =>
    obtain ⟨ihV, ihI, ihM⟩ := ih
    refine ⟨?_, ?_, ?_⟩
    · intro m w i hw
      cases w with
      | pnull => simp [encV, tmplV, tmplText, holesOf, segText]
      | pbool b => cases b <;> simp [encV, tmplV, tmplText, holesOf, segText]
      | pnum v => simp [encV, tmplV, tmplText, holesOf, segText]
      | pstr s => simp [encV, tmplV, tmplText, holesOf, segText]
      | pcustom cpt v => simp [encV, tmplV, tmplText, holesOf, segText]
      | parr xs =>
        cases xs with
        | nil => simp [encV, tmplV, tmplText, holesOf, segText]
        | cons x xs' =>
          simp only [encV, tmplV]
          rw [ihV (childM m) x i (by simp [psize, psizeL] at hw; omega)]
          dsimp only
          rw [ihI m xs' _ (by simp [psize, psizeL] at hw; omega)]
          simp [tmplText_cons, tmplText_append, tmplText_nil, holesOf_append,
            holesOf, segText, List.append_assoc]
      | pobj kvs =>
        cases kvs with
        | nil => simp [encV, tmplV, tmplText, holesOf, segText]
        | cons kv kvs' =>
          simp only [encV, tmplV]
          rw [ihV (childM m) kv.2 i (by simp [psize, psizeKV] at hw; omega)]
          dsimp only
          rw [ihM m kvs' _ (by simp [psize, psizeKV] at hw; omega)]
          simp [tmplText_cons, tmplText_append, tmplText_nil, holesOf_append,
            holesOf, segText, List.append_assoc]
    · intro m xs i hx
      cases xs with
      | nil => rfl
      | cons x xs' =>
        simp only [encItems, tmplItems]
        rw [ihV (childM m) x i (by simp [psizeL] at hx; omega)]
        dsimp only
        rw [ihI m xs' _ (by simp [psizeL] at hx; omega)]
        simp [tmplText_cons, tmplText_append, tmplText_nil, holesOf_append,
          holesOf, segText, List.append_assoc]
    · intro m kvs i hk
      cases kvs with
      | nil => rfl
      | cons kv kvs' =>
        simp only [encMembers, tmplMembers]
        rw [ihV (childM m) kv.2 i (by simp [psizeKV] at hk; omega)]
        dsimp only
        rw [ihM m kvs' _ (by simp [psizeKV] at hk; omega)]
        simp [tmplText_cons, tmplText_append, tmplText_nil, holesOf_append,
          holesOf, segText, List.append_assoc]

theorem range1_split (i a b : Nat) :
    List.range' i (a + b) = List.range' i a ++ List.range' (i + a) b := by
  have h := List.range'_append i a b 1
  simp only [Nat.one_mul] at h
  rw [Nat.add_comm a b, ← h]

theorem tmplV_wf (ks : Nat → List Char) :
    ∀ n : Nat,
      (∀ (m : Mode) (w : PVal) (i : Nat), psize w ≤ n →
        (tmplV ks m w i).2 = i + numC w ∧
        keysOfT (tmplV ks m w i).1 = (List.range' i (numC w)).map ks ∧
        (safeP w = true → (tmplV ks m w i).1.all segAtFree = true)) ∧
      (∀ (m : Mode) (xs : List PVal) (i : Nat), psizeL xs ≤ n →
        (tmplItems ks m xs i).2 = i + numCL xs ∧
        keysOfT (tmplItems ks m xs i).1 =
          (List.range' i (numCL xs)).map ks ∧
        (safePL xs = true →
          (tmplItems ks m xs i).1.all segAtFree = true)) ∧
      (∀ (m : Mode) (kvs : List (String × PVal)) (i : Nat), psizeKV kvs ≤ n →
        (tmplMembers ks m kvs i).2 = i + numCKV kvs ∧
        keysOfT (tmplMembers ks m kvs i).1 =
          (List.range' i (numCKV kvs)).map ks ∧
        (safePKV kvs = true →
          (tmplMembers ks m kvs i).1.all segAtFree = true)) := by
  intro n
  induction n with
  | zero =>
    refine ⟨?_, ?_, ?_⟩
    · intro m w i hw
      have := psize_pos w
      omega
    · intro m xs i hx
      cases xs with
      | nil => exact ⟨rfl, rfl, fun _ => rfl⟩
      | cons x xs' => simp [psizeL] at hx
    · intro m kvs i hk
      cases kvs with
      | nil => exact ⟨rfl, rfl, fun _ => rfl⟩
      | cons kv kvs' => simp [psizeKV] at hk
  | succ n ih =>
    obtain ⟨ihV, ihI, ihM⟩ := ih
    refine ⟨?_, ?_, ?_⟩
    · intro m w i hw
      cases w with
      | pnull =>
        refine ⟨rfl, rfl, fun _ => ?_⟩
        simp [tmplV, segAtFree]
        decide
      | pbool b =>
        cases b
        · refine ⟨rfl, rfl, fun _ => ?_⟩
          simp [tmplV, segAtFree]
          decide
        · refine ⟨rfl, rfl, fun _ => ?_⟩
          simp [tmplV, segAtFree]
          decide
      | pnum v =>
        refine ⟨rfl, rfl, fun _ => ?_⟩
        simp [tmplV, segAtFree, atFree_intChars]
      | pstr s =>
        refine ⟨rfl, rfl, fun hs => ?_⟩
        simp only [safeP] at hs
        simp [tmplV, segAtFree, atFree_encStr s hs]
      | pcustom cpt v =>
        refine ⟨rfl, ?_, fun hs => ?_⟩
        · simp [tmplV, keysOfT, numC, List.range']
        · simp only [safeP] at hs
          simp [tmplV, segAtFree,
            (rJ_atFree (jsize v)).1 (cmodeOf cpt) v le_rfl hs]
      | parr xs =>
        cases xs with
        | nil =>
          refine ⟨rfl, rfl, fun _ => ?_⟩
          simp [tmplV, segAtFree]
          decide
        | cons x xs' =>
          have hszx : psize x ≤ n := by simp [psize, psizeL] at hw; omega
          have hszxs : psizeL xs' ≤ n := by simp [psize, psizeL] at hw; omega
          obtain ⟨ha1, ha2, ha3⟩ := ihV (childM m) x i hszx
          obtain ⟨hb1, hb2, hb3⟩ :=
            ihI m xs' (tmplV ks (childM m) x i).2 hszxs
          refine ⟨?_, ?_, fun hs => ?_⟩
          · simp only [tmplV]
            rw [hb1, ha1]
            simp [numC, numCL, Nat.add_assoc]
          · simp only [tmplV, keysOfT, keysOfT_append, List.append_nil]
            rw [ha2, hb2, ha1]
            simp only [numC, numCL]
            rw [range1_split i (numC x) (numCL xs'), List.map_append]
          · simp only [safeP, safePL, Bool.and_eq_true] at hs
            simp only [tmplV, List.all_cons, List.all_append, List.all_nil,
              Bool.and_eq_true, Bool.and_true]
            refine ⟨?_, ⟨ha3 hs.1, hb3 hs.2⟩, ?_⟩
            · simp [segAtFree, atFree_cons, atFree_openBr]
            · simp [segAtFree, atFree_append, atFree_cons, atFree_nil,
                atFree_closeBr]
      | pobj kvs =>
        cases kvs with
        | nil =>
          refine ⟨rfl, rfl, fun _ => ?_⟩
          simp [tmplV, segAtFree]
          decide
        | cons kv kvs' =>
          have hszx : psize kv.2 ≤ n := by simp [psize, psizeKV] at hw; omega
          have hszxs : psizeKV kvs' ≤ n := by
            simp [psize, psizeKV] at hw; omega
          obtain ⟨ha1, ha2, ha3⟩ := ihV (childM m) kv.2 i hszx
          obtain ⟨hb1, hb2, hb3⟩ :=
            ihM m kvs' (tmplV ks (childM m) kv.2 i).2 hszxs
          refine ⟨?_, ?_, fun hs => ?_⟩
          · simp only [tmplV]
            rw [hb1, ha1]
            simp [numC, numCKV, Nat.add_assoc]
          · simp only [tmplV, keysOfT, keysOfT_append, List.append_nil]
            rw [ha2, hb2, ha1]
            simp only [numC, numCKV]
            rw [range1_split i (numC kv.2) (numCKV kvs'), List.map_append]
          · simp only [safeP, safePKV, Bool.and_eq_true] at hs
            simp only [tmplV, List.all_cons, List.all_append, List.all_nil,
              Bool.and_eq_true, Bool.and_true]
            refine ⟨?_, ⟨ha3 hs.2.1.2, hb3 hs.2.2⟩, ?_⟩
            · simp [segAtFree, atFree_cons, atFree_append, atFree_openBr,
                atFree_kvSepM, atFree_encStr kv.1 hs.2.1.1]
            · simp [segAtFree, atFree_append, atFree_cons, atFree_nil,
                atFree_closeBr]
    · intro m xs i hx
      cases xs with
      | nil => exact ⟨rfl, rfl, fun _ => rfl⟩
      | cons x xs' =>
        have hszx : psize x ≤ n := by simp [psizeL] at hx; omega
        have hszxs : psizeL xs' ≤ n := by simp [psizeL] at hx; omega
        obtain ⟨ha1, ha2, ha3⟩ := ihV (childM m) x i hszx
        obtain ⟨hb1, hb2, hb3⟩ :=
          ihI m xs' (tmplV ks (childM m) x i).2 hszxs
        refine ⟨?_, ?_, fun hs => ?_⟩
        · simp only [tmplItems]
          rw [hb1, ha1]
          simp [numCL, Nat.add_assoc]
        · simp only [tmplItems, keysOfT, keysOfT_append]
          rw [ha2, hb2, ha1]
          simp only [numCL]
          rw [range1_split i (numC x) (numCL xs'), List.map_append]
        · simp only [safePL, Bool.and_eq_true] at hs
          simp only [tmplItems, List.all_cons, List.all_append,
            Bool.and_eq_true]
          exact ⟨by simp [segAtFree, atFree_sepIt], ha3 hs.1, hb3 hs.2⟩
    · intro m kvs i hk
      cases kvs with
      | nil => exact ⟨rfl, rfl, fun _ => rfl⟩
      | cons kv kvs' =>
        have hszx : psize kv.2 ≤ n := by simp [psizeKV] at hk; omega
        have hszxs : psizeKV kvs' ≤ n := by simp [psizeKV] at hk; omega
        obtain ⟨ha1, ha2, ha3⟩ := ihV (childM m) kv.2 i hszx
        obtain ⟨hb1, hb2, hb3⟩ :=
          ihM m kvs' (tmplV ks (childM m) kv.2 i).2 hszxs
        refine ⟨?_, ?_, fun hs => ?_⟩
        · simp only [tmplMembers]
          rw [hb1, ha1]
          simp [numCKV, Nat.add_assoc]
        · simp only [tmplMembers, keysOfT, keysOfT_append]
          rw [ha2, hb2, ha1]
          simp only [numCKV]
          rw [range1_split i (numC kv.2) (numCKV kvs'), List.map_append]
        · simp only [safePKV, Bool.and_eq_true] at hs
          simp only [tmplMembers, List.all_cons, List.all_append,
            Bool.and_eq_true]
          refine ⟨?_, ha3 hs.1.2, hb3 hs.2⟩
          simp [segAtFree, atFree_append, atFree_sepIt, atFree_kvSepM,
            atFree_encStr kv.1 hs.1.1]

theorem nodupCL_map_range (ks : Nat → List Char) :
    ∀ n s : Nat,
      (∀ i j, i < s + n → j < s + n → ks i = ks j → i = j) →
      nodupCL ((List.range' s n).map ks) = true := by
  intro n
  induction n with
  | zero => intro s _; rfl
  | succ n ih =>
    intro s hinj
    rw [List.range'_succ s n 1]
    simp only [List.map_cons, nodupCL, Bool.and_eq_true, Bool.not_eq_true']
    constructor
    · by_contra hc
      rw [Bool.not_eq_false] at hc
      have hmem : ks s ∈ (List.range' (s + 1) n).map ks := by simpa using hc
      simp only [List.mem_map] at hmem
      obtain ⟨j, hj, hje⟩ := hmem
      have hjr : s + 1 ≤ j ∧ j < s + 1 + n := by
        simpa [List.mem_range'_1] using hj
      have : j = s := hinj j s (by omega) (by omega) hje
      omega
    · exact ih (s + 1) (fun i j hi hj he => hinj i j (by omega) (by omega) he)

theorem encodeCustom_eq_mrP (ks : Nat → List Char) (v : PVal)
    (hks : keysOK ks (numC v)) (hsafe : safeP v = true) :
    encodeCustom ks v = mrP (.ind 0) v := by
  obtain ⟨hshape, hinj⟩ := hks
  have hE := (encV_tmpl ks (psize v)).1 (.ind 0) v 0 le_rfl
  obtain ⟨hidx, hkeys, hfree⟩ := (tmplV_wf ks (psize v)).1 (.ind 0) v 0 le_rfl
  have hF := (tmplFill_mrP ks (psize v)).1 (.ind 0) v 0 le_rfl
  have hkeys2 :
      ∀ k2 ∈ keysOfT (tmplV ks (.ind 0) v 0).1, keyOKb k2 = true := by
    intro k2 hk2
    rw [hkeys] at hk2
    simp only [List.mem_map] at hk2
    obtain ⟨i, hi, rfl⟩ := hk2
    have hlt : i < numC v := by
      have h2 : 0 ≤ i ∧ i < 0 + numC v := by
        simpa [List.mem_range'_1] using hi
      omega
    obtain ⟨h1, h2⟩ := hshape i hlt
    simp [keyOKb, h1, h2]
  have hnodup : nodupCL (keysOfT (tmplV ks (.ind 0) v 0).1) = true := by
    rw [hkeys]
    exact nodupCL_map_range ks (numC v) 0
      (fun i j hi hj he => hinj i j (by omega) (by omega) he)
  have hfold := repl_fold (holesOf (tmplV ks (.ind 0) v 0).1)
    (tmplV ks (.ind 0) v 0).1 rfl (hfree hsafe) hkeys2 hnodup
  simp only [encodeCustom]
  rw [hE]
  dsimp only
  rw [hfold, hF]

theorem noWs_nil : noWs [] = true := rfl

theorem noWs_cons (c : Char) (t : List Char) :
    noWs (c :: t) = (!wsChar c && noWs t) := by
  simp [noWs]

theorem noWs_append (a b : List Char) :
    noWs (a ++ b) = (noWs a && noWs b) := by
  simp [noWs]

theorem digit_not_ws (c : Char) (h : digit? c = true) : wsChar c = false := by
  cases hw : wsChar c
  · rfl
  · rcases wsChar_cases c hw with rfl | rfl | rfl | rfl <;>
      exact absurd h (by decide)

theorem noWs_natDigs (n : Nat) : noWs (natDigs n) = true := by
  rw [natDigs]
  by_cases h : n < 10
  · simp only [h, dite_true]
    simp [noWs, digit_not_ws _ (digitChar_isdigit n)]
  · simp only [h, dite_false]
    rw [noWs_append]
    rw [noWs_natDigs (n / 10)]
    simp [noWs, digit_not_ws _ (digitChar_isdigit (n % 10))]
termination_by n
decreasing_by exact Nat.div_lt_self (by omega) (by omega)

theorem noWs_intChars (n : Int) : noWs (intChars n) = true := by
  rw [intChars]
  by_cases h : n < 0
  · simp only [h, if_true]
    have hn := noWs_natDigs n.natAbs
    simp only [noWs, List.all_cons, Bool.and_eq_true] at hn ⊢
    exact ⟨by decide, hn⟩
  · simp only [h, if_false]
    exact noWs_natDigs n.natAbs

theorem noWs_encStr (s : String) (h : wsFreeStr s = true) :
    noWs (encStr s) = true := by
  rw [encStr, encChars]
  simp only [noWs, List.all_eq_true]
  intro c hc
  simp only [List.mem_cons, List.mem_append] at hc
  rcases hc with (rfl | hc) | hc
  · decide
  · simp only [List.mem_flatten, List.mem_map] at hc
    obtain ⟨l, ⟨c0, hc0, rfl⟩, hcl⟩ := hc
    have hs : wsChar c0 = false := by
      simp only [wsFreeStr, List.all_eq_true] at h
      simpa using h c0 hc0
    by_cases h1 : c0 = '"'
    · subst h1
      simp [escapeChar] at hcl
      rcases hcl with rfl | rfl <;> decide
    · by_cases h2 : c0 = '\\'
      · subst h2
        simp [escapeChar, h1] at hcl
        rcases hcl with rfl | rfl <;> decide
      · simp [escapeChar, h1, h2] at hcl
        subst hcl
        simp [hs]
  · rcases hc with rfl | hc
    · decide
    · simp at hc

theorem rJ_compact_noWs :
    ∀ n : Nat,
      (∀ j : Json, jsize j ≤ n → wsFreeJ j = true →
        noWs (rJ .compact j) = true) ∧
      (∀ xs : List Json, jsizeL xs ≤ n → wsFreeJL xs = true →
        noWs (rItems .compact xs) = true) ∧
      (∀ kvs : List (String × Json), jsizeKV kvs ≤ n →
        wsFreeJKV kvs = true → noWs (rMembers .compact kvs) = true) := by
  intro n
  induction n with
  | zero =>
    refine ⟨?_, ?_, ?_⟩
    · intro j hj _
      have := jsize_pos j
      omega
    · intro xs hx _
      cases xs with
      | nil => rfl
      | cons x xs' => simp [jsizeL] at hx
    · intro kvs hk _
      cases kvs with
      | nil => rfl
      | cons kv kvs' => simp [jsizeKV] at hk
  | succ n ih =>
    obtain ⟨ihJ, ihI, ihM⟩ := ih
    refine ⟨?_, ?_, ?_⟩
    · intro j hj hws
      cases j with
      | null => decide
      | bool b => cases b <;> decide
      | num v => exact noWs_intChars v
      | str s => exact noWs_encStr s hws
      | arr xs =>
        cases xs with
        | nil => decide
        | cons x xs' =>
          simp only [wsFreeJ, wsFreeJL, Bool.and_eq_true] at hws
          have h1 := ihJ x (by simp [jsize, jsizeL] at hj; omega) hws.1
          have h2 := ihI xs' (by simp [jsize, jsizeL] at hj; omega) hws.2
          simp [rJ, noWs_cons, noWs_append, noWs_nil, openBr, closeBr,
            wsChar, childM, h1, h2]
      | obj kvs =>
        cases kvs with
        | nil => decide
        | cons kv kvs' =>
          simp only [wsFreeJ, wsFreeJKV, Bool.and_eq_true] at hws
          have h1 := ihJ kv.2 (by simp [jsize, jsizeKV] at hj; omega)
            hws.1.2
          have h2 := ihM kvs' (by simp [jsize, jsizeKV] at hj; omega)
            hws.2
          simp [rJ, noWs_cons, noWs_append, noWs_nil, openBr, closeBr,
            kvSepM, wsChar, childM, h1, h2, noWs_encStr kv.1 hws.1.1]
    · intro xs hx hws
      cases xs with
      | nil => rfl
      | cons x xs' =>
        simp only [wsFreeJL, Bool.and_eq_true] at hws
        have h1 := ihJ x (by simp [jsizeL] at hx; omega) hws.1
        have h2 := ihI xs' (by simp [jsizeL] at hx; omega) hws.2
        simp [rItems, noWs_cons, noWs_append, noWs_nil, sepIt, wsChar,
          childM, h1, h2]
    · intro kvs hk hws
      cases kvs with
      | nil => rfl
      | cons kv kvs' =>
        simp only [wsFreeJKV, Bool.and_eq_true] at hws
        have h1 := ihJ kv.2 (by simp [jsizeKV] at hk; omega) hws.1.2
        have h2 := ihM kvs' (by simp [jsizeKV] at hk; omega) hws.2
        simp [rMembers, noWs_cons, noWs_append, noWs_nil, sepIt, kvSepM,
          wsChar, childM, h1, h2, noWs_encStr kv.1 hws.1.1]

theorem strip_toP :
    ∀ n : Nat,
      (∀ j : Json, jsize j ≤ n → PVal.strip (Json.toP j) = j) ∧
      (∀ xs : List Json, jsizeL xs ≤ n → PVal.stripL (Json.toPL xs) = xs) ∧
      (∀ kvs : List (String × Json), jsizeKV kvs ≤ n →
        PVal.stripKV (Json.toPKV kvs) = kvs) := by
  intro n
  induction n with
  | zero =>
    refine ⟨?_, ?_, ?_⟩
    · intro j hj
      have := jsize_pos j
      omega
    · intro xs hx
      cases xs with
      | nil => rfl
      | cons x xs' => simp [jsizeL] at hx
    · intro kvs hk
      cases kvs with
      | nil => rfl
      | cons kv kvs' => simp [jsizeKV] at hk
  | succ n ih =>
    obtain ⟨ihJ, ihI, ihM⟩ := ih
    refine ⟨?_, ?_, ?_⟩
    · intro j hj
      cases j with
      | null => rfl
      | bool b => rfl
      | num v => rfl
      | str s => rfl
      | arr xs =>
        simp only [Json.toP, PVal.strip]
        rw [ihI xs (by simp [jsize] at hj; omega)]
      | obj kvs =>
        simp only [Json.toP, PVal.strip]
        rw [ihM kvs (by simp [jsize] at hj; omega)]
    · intro xs hx
      cases xs with
      | nil => rfl
      | cons x xs' =>
        simp only [Json.toPL, PVal.stripL]
        rw [ihJ x (by simp [jsizeL] at hx; omega),
            ihI xs' (by simp [jsizeL] at hx; omega)]
    · intro kvs hk
      cases kvs with
      | nil => rfl
      | cons kv kvs' =>
        obtain ⟨k0, v0⟩ := kv
        simp only [Json.toPKV, PVal.stripKV]
        rw [ihJ v0 (by simp [jsizeKV] at hk; omega),
            ihM kvs' (by simp [jsizeKV] at hk; omega)]

theorem stripKV_toPDict (kvs : List (String × Json)) :
    PVal.stripKV (toPDict kvs) = kvs := by
  induction kvs with
  | nil => rfl
  | cons kv rest ih =>
    obtain ⟨k0, v0⟩ := kv
    simp only [toPDict, List.map_cons] at ih ⊢
    simp only [PVal.stripKV]
    rw [(strip_toP (jsize v0)).1 v0 le_rfl, ih]

theorem stripKV_keys (kvs' : List (String × PVal)) :
    (PVal.stripKV kvs').map Prod.fst = kvs'.map Prod.fst := by
  induction kvs' with
  | nil => rfl
  | cons kv rest ih =>
    obtain ⟨k0, v0⟩ := kv
    simp only [PVal.stripKV, List.map_cons, ih]

theorem setP_keys (k : String) (nv : PVal) (kvs' : List (String × PVal)) :
    (setP k nv kvs').map Prod.fst = kvs'.map Prod.fst := by
  induction kvs' with
  | nil => rfl
  | cons kv rest ih =>
    simp only [setP, List.map_cons] at ih ⊢
    by_cases h : kv.1 = k
    · simp [h, ih]
    · simp [h, ih]

theorem toPDict_keys (kvs : List (String × Json)) :
    (toPDict kvs).map Prod.fst = kvs.map Prod.fst := by
  induction kvs with
  | nil => rfl
  | cons kv rest ih =>
    simp only [toPDict, List.map_cons] at ih ⊢
    simp [ih]

theorem toPKV_keys (kvs : List (String × Json)) :
    (Json.toPKV kvs).map Prod.fst = kvs.map Prod.fst := by
  induction kvs with
  | nil => rfl
  | cons kv rest ih =>
    obtain ⟨k0, v0⟩ := kv
    simp only [Json.toPKV, List.map_cons, ih]

theorem jLookup_safe (k : String) :
    ∀ (kvs : List (String × Json)) (v : Json),
      safeJKV kvs = true → jLookup k kvs = some v → safeJ v = true := by
  intro kvs
  induction kvs with
  | nil =>
    intro v _ h
    simp [jLookup] at h
  | cons kv rest ih =>
    intro v hs hl
    simp only [safeJKV, Bool.and_eq_true] at hs
    simp only [jLookup] at hl
    split at hl
    · obtain rfl := Option.some.inj hl
      exact hs.1.2
    · exact ih v hs.2 hl

theorem setP_noop (k : String) (nv : PVal) :
    ∀ kvs' : List (String × PVal),
      (∀ kv ∈ kvs', kv.1 ≠ k) →
      setP k nv kvs' = kvs' := by
  intro kvs'
  induction kvs' with
  | nil => intro _; rfl
  | cons kv rest ih =>
    intro h
    simp only [setP, List.map_cons]
    rw [if_neg (h kv (by simp))]
    have ht := ih (fun kv2 hm => h kv2 (by simp [hm]))
    simp only [setP] at ht
    rw [ht]

theorem setP_cons (k : String) (nv : PVal) (kv : String × PVal)
    (rest : List (String × PVal)) :
    setP k nv (kv :: rest) =
      (if kv.1 = k then (kv.1, nv) else kv) :: setP k nv rest := rfl

theorem stripKV_setP (k : String) (nv : PVal) :
    ∀ kvs' : List (String × PVal),
      nodupKeys (kvs'.map Prod.fst) = true →
      jLookup k (PVal.stripKV kvs') = some (PVal.strip nv) →
      PVal.stripKV (setP k nv kvs') = PVal.stripKV kvs' := by
  intro kvs'
  induction kvs' with
  | nil => intro _ _; rfl
  | cons kv rest ih =>
    intro hnd hl
    obtain ⟨k0, v0⟩ := kv
    simp only [List.map_cons, nodupKeys, Bool.and_eq_true,
      Bool.not_eq_true'] at hnd
    simp only [PVal.stripKV, jLookup] at hl
    by_cases he : k0 = k
    · subst he
      rw [if_pos rfl] at hl
      obtain hv := Option.some.inj hl
      have hnoop : setP k0 nv rest = rest := by
        apply setP_noop
        intro kv2 hm he2
        have hmem : k0 ∈ rest.map Prod.fst :=
          List.mem_map.mpr ⟨kv2, hm, he2⟩
        have hc : (rest.map Prod.fst).contains k0 = true := by
          simpa using hmem
        rw [hnd.1] at hc
        cases hc
      rw [setP_cons, if_pos rfl, hnoop]
      simp only [PVal.stripKV]
      rw [hv]
    · rw [if_neg he] at hl
      rw [setP_cons, if_neg he]
      simp only [PVal.stripKV]
      rw [ih hnd.2 hl]

theorem safeP_toP :
    ∀ n : Nat,
      (∀ j : Json, jsize j ≤ n → safeJ j = true →
        safeP (Json.toP j) = true) ∧
      (∀ xs : List Json, jsizeL xs ≤ n → safeJL xs = true →
        safePL (Json.toPL xs) = true) ∧
      (∀ kvs : List (String × Json), jsizeKV kvs ≤ n → safeJKV kvs = true →
        safePKV (Json.toPKV kvs) = true) := by
  intro n
  induction n with
  | zero =>
    refine ⟨?_, ?_, ?_⟩
    · intro j hj _
      have := jsize_pos j
      omega
    · intro xs hx _
      cases xs with
      | nil => rfl
      | cons x xs' => simp [jsizeL] at hx
    · intro kvs hk _
      cases kvs with
      | nil => rfl
      | cons kv kvs' => simp [jsizeKV] at hk
  | succ n ih =>
    obtain ⟨ihJ, ihI, ihM⟩ := ih
    refine ⟨?_, ?_, ?_⟩
    · intro j hj hs
      cases j with
      | null => rfl
      | bool b => rfl
      | num v => rfl
      | str s => exact hs
      | arr xs =>
        simp only [Json.toP, safeP]
        exact ihI xs (by simp [jsize] at hj; omega) hs
      | obj kvs =>
        simp only [safeJ, Bool.and_eq_true] at hs
        simp only [Json.toP, safeP, Bool.and_eq_true]
        exact ⟨by rw [toPKV_keys]; exact hs.1,
          ihM kvs (by simp [jsize] at hj; omega) hs.2⟩
    · intro xs hx hs
      cases xs with
      | nil => rfl
      | cons x xs' =>
        simp only [safeJL, Bool.and_eq_true] at hs
        simp only [Json.toPL, safePL, Bool.and_eq_true]
        exact ⟨ihJ x (by simp [jsizeL] at hx; omega) hs.1,
          ihI xs' (by simp [jsizeL] at hx; omega) hs.2⟩
    · intro kvs hk hs
      cases kvs with
      | nil => rfl
      | cons kv kvs' =>
        obtain ⟨k0, v0⟩ := kv
        simp only [safeJKV, Bool.and_eq_true] at hs
        simp only [Json.toPKV, safePKV, Bool.and_eq_true]
        exact ⟨⟨hs.1.1, ihJ v0 (by simp [jsizeKV] at hk; omega) hs.1.2⟩,
          ihM kvs' (by simp [jsizeKV] at hk; omega) hs.2⟩

theorem safePKV_toPDict :
    ∀ kvs : List (String × Json), safeJKV kvs = true →
      safePKV (toPDict kvs) = true := by
  intro kvs
  induction kvs with
  | nil => intro _; rfl
  | cons kv rest ih =>
    intro h
    simp only [safeJKV, Bool.and_eq_true] at h
    simp only [toPDict, List.map_cons, safePKV, Bool.and_eq_true]
    have ht := ih h.2
    simp only [toPDict] at ht
    exact ⟨⟨h.1.1, (safeP_toP (jsize kv.2)).1 kv.2 le_rfl h.1.2⟩, ht⟩

theorem safePKV_setP (k : String) (nv : PVal) (hnv : safeP nv = true) :
    ∀ kvs' : List (String × PVal),
      safePKV kvs' = true → safePKV (setP k nv kvs') = true := by
  intro kvs'
  induction kvs' with
  | nil => intro _; rfl
  | cons kv rest ih =>
    intro h
    simp only [safePKV, Bool.and_eq_true] at h
    simp only [setP, List.map_cons]
    have ht := ih h.2
    simp only [setP] at ht
    by_cases he : kv.1 = k
    · rw [if_pos he]
      simp only [safePKV, Bool.and_eq_true]
      exact ⟨⟨h.1.1, hnv⟩, ht⟩
    · rw [if_neg he]
      simp only [safePKV, Bool.and_eq_true]
      exact ⟨h.1, ht⟩

theorem wrapAxis_strip (j : Json) (w : PVal)
    (hsafe : safeJ j = true) (h : wrapAxis j = .ok w) :
    PVal.strip w = j ∧ safeP w = true := by
  cases j with
  | obj kvs =>
    simp only [wrapAxis] at h
    cases hv : jLookup "values" kvs with
    | none =>
      rw [hv] at h
      cases h
    | some v =>
      rw [hv] at h
      injection h with h
      subst h
      simp only [safeJ, Bool.and_eq_true] at hsafe
      obtain ⟨hnd, hskv⟩ := hsafe
      have hstrip :
          PVal.stripKV (setP "values" (.pcustom true v) (toPDict kvs)) =
            kvs := by
        rw [stripKV_setP "values" (.pcustom true v) (toPDict kvs)
            (by rw [toPDict_keys]; exact hnd)
            (by rw [stripKV_toPDict]; exact hv),
          stripKV_toPDict]
      constructor
      · simp only [PVal.strip]
        rw [hstrip]
      · simp only [safeP, Bool.and_eq_true]
        refine ⟨by rw [setP_keys, toPDict_keys]; exact hnd, ?_⟩
        exact safePKV_setP "values" (.pcustom true v)
          (by simp only [safeP]; exact jLookup_safe "values" kvs v hskv hv)
          (toPDict kvs) (safePKV_toPDict kvs hskv)
  | null => simp [wrapAxis] at h
  | bool b => simp [wrapAxis] at h
  | num n => simp [wrapAxis] at h
  | str s => simp [wrapAxis] at h
  | arr xs => simp [wrapAxis] at h

theorem wrapRef_strip (j : Json) (w : PVal)
    (hsafe : safeJ j = true) (h : wrapRef j = .ok w) :
    PVal.strip w = j ∧ safeP w = true := by
  cases j with
  | obj kvs =>
    simp only [wrapRef] at h
    cases hv : jLookup "coordinates" kvs with
    | none =>
      rw [hv] at h
      cases h
    | some v =>
      rw [hv] at h
      injection h with h
      subst h
      simp only [safeJ, Bool.and_eq_true] at hsafe
      obtain ⟨hnd, hskv⟩ := hsafe
      have hstrip :
          PVal.stripKV
              (setP "coordinates" (.pcustom false v) (toPDict kvs)) =
            kvs := by
        rw [stripKV_setP "coordinates" (.pcustom false v) (toPDict kvs)
            (by rw [toPDict_keys]; exact hnd)
            (by rw [stripKV_toPDict]; exact hv),
          stripKV_toPDict]
      constructor
      · simp only [PVal.strip]
        rw [hstrip]
      · simp only [safeP, Bool.and_eq_true]
        refine ⟨by rw [setP_keys, toPDict_keys]; exact hnd, ?_⟩
        exact safePKV_setP "coordinates" (.pcustom false v)
          (by simp only [safeP]
              exact jLookup_safe "coordinates" kvs v hskv hv)
          (toPDict kvs) (safePKV_toPDict kvs hskv)
  | null => simp [wrapRef] at h
  | bool b => simp [wrapRef] at h
  | num n => simp [wrapRef] at h
  | str s => simp [wrapRef] at h
  | arr xs => simp [wrapRef] at h

theorem wrapRange_strip (j : Json) (w : PVal)
    (hsafe : safeJ j = true) (h : wrapRange j = .ok w) :
    PVal.strip w = j ∧ safeP w = true := by
  cases j with
  | obj kvs =>
    simp only [wrapRange] at h
    cases han : jLookup "axisNames" kvs with
    | none =>
      rw [han] at h
      cases h
    | some an =>
      rw [han] at h
      dsimp only at h
      cases hsh : jLookup "shape" kvs with
      | none =>
        rw [hsh] at h
        cases h
      | some sh =>
        rw [hsh] at h
        dsimp only at h
        cases hvv : jLookup "values" kvs with
        | none =>
          rw [hvv] at h
          cases h
        | some vv =>
          rw [hvv] at h
          dsimp only at h
          injection h with h
          subst h
          simp only [safeJ, Bool.and_eq_true] at hsafe
          obtain ⟨hnd, hskv⟩ := hsafe
          have hs1 :
              PVal.stripKV
                  (setP "axisNames" (.pcustom false an) (toPDict kvs)) =
                kvs := by
            rw [stripKV_setP "axisNames" (.pcustom false an) (toPDict kvs)
                (by rw [toPDict_keys]; exact hnd)
                (by rw [stripKV_toPDict]; exact han),
              stripKV_toPDict]
          have hk1 :
              (setP "axisNames" (.pcustom false an)
                  (toPDict kvs)).map Prod.fst =
                kvs.map Prod.fst := by
            rw [setP_keys, toPDict_keys]
          have hs2 :
              PVal.stripKV (setP "shape" (.pcustom false sh)
                  (setP "axisNames" (.pcustom false an) (toPDict kvs))) =
                kvs := by
            rw [stripKV_setP "shape" (.pcustom false sh) _
                (by rw [hk1]; exact hnd)
                (by rw [hs1]; exact hsh),
              hs1]
          have hk2 :
              (setP "shape" (.pcustom false sh)
                  (setP "axisNames" (.pcustom false an)
                    (toPDict kvs))).map Prod.fst =
                kvs.map Prod.fst := by
            rw [setP_keys, hk1]
          have hs3 :
              PVal.stripKV (setP "values" (.pcustom true vv)
                  (setP "shape" (.pcustom false sh)
                    (setP "axisNames" (.pcustom false an)
                      (toPDict kvs)))) =
                kvs := by
            rw [stripKV_setP "values" (.pcustom true vv) _
                (by rw [hk2]; exact hnd)
                (by rw [hs2]; exact hvv),
              hs2]
          constructor
          · simp only [PVal.strip]
            rw [hs3]
          · simp only [safeP, Bool.and_eq_true]
            refine ⟨by rw [setP_keys, hk2]; exact hnd, ?_⟩
            apply safePKV_setP _ _
              (by simp only [safeP]
                  exact jLookup_safe "values" kvs vv hskv hvv)
            apply safePKV_setP _ _
              (by simp only [safeP]
                  exact jLookup_safe "shape" kvs sh hskv hsh)
            apply safePKV_setP _ _
              (by simp only [safeP]
                  exact jLookup_safe "axisNames" kvs an hskv han)
            exact safePKV_toPDict kvs hskv
  | null => simp [wrapRange] at h
  | bool b => simp [wrapRange] at h
  | num n => simp [wrapRange] at h
  | str s => simp [wrapRange] at h
  | arr xs => simp [wrapRange] at h

theorem wrapDictVals_strip (f : Json → Except PyErr PVal)
    (hf : ∀ (v : Json) (w : PVal), safeJ v = true → f v = .ok w →
      PVal.strip w = v ∧ safeP w = true) :
    ∀ (kvs : List (String × Json)) (kvs' : List (String × PVal)),
      safeJKV kvs = true →
      wrapDictVals f kvs = .ok kvs' →
      PVal.stripKV kvs' = kvs ∧ safePKV kvs' = true := by
  intro kvs
  induction kvs with
  | nil =>
    intro kvs' _ h
    simp only [wrapDictVals] at h
    injection h with h
    subst h
    exact ⟨rfl, rfl⟩
  | cons kv rest ih =>
    intro kvs' hs h
    simp only [safeJKV, Bool.and_eq_true] at hs
    simp only [wrapDictVals] at h
    cases hv : f kv.2 with
    | error e =>
      rw [hv] at h
      simp [Bind.bind, Except.bind] at h
    | ok v' =>
      rw [hv] at h
      cases hr : wrapDictVals f rest with
      | error e =>
        rw [hr] at h
        simp [Bind.bind, Except.bind] at h
      | ok rest' =>
        rw [hr] at h
        simp only [Bind.bind, Except.bind] at h
        injection h with h
        subst h
        obtain ⟨h1, h2⟩ := hf kv.2 v' hs.1.2 hv
        obtain ⟨h3, h4⟩ := ih rest' hs.2 hr
        constructor
        · simp only [PVal.stripKV]
          rw [h1, h3]
        · simp only [safePKV, Bool.and_eq_true]
          exact ⟨⟨hs.1.1, h2⟩, h4⟩

theorem mapM_wrap_strip (f : Json → Except PyErr PVal)
    (hf : ∀ (v : Json) (w : PVal), safeJ v = true → f v = .ok w →
      PVal.strip w = v ∧ safeP w = true) :
    ∀ (xs : List Json) (xs' : List PVal),
      safeJL xs = true →
      xs.mapM f = .ok xs' →
      PVal.stripL xs' = xs ∧ safePL xs' = true := by
  intro xs
  induction xs with
  | nil =>
    intro xs' _ h
    rw [← List.mapM'_eq_mapM] at h
    simp only [List.mapM', pure, Except.pure] at h
    injection h with h
    subst h
    exact ⟨rfl, rfl⟩
  | cons x rest ih =>
    intro xs' hs h
    simp only [safeJL, Bool.and_eq_true] at hs
    rw [← List.mapM'_eq_mapM] at h
    simp only [List.mapM'] at h
    cases hv : f x with
    | error e =>
      rw [hv] at h
      simp [Bind.bind, Except.bind] at h
    | ok v' =>
      rw [hv] at h
      cases hr : rest.mapM' f with
      | error e =>
        rw [hr] at h
        simp [Bind.bind, Except.bind] at h
      | ok rest' =>
        rw [hr] at h
        simp only [Bind.bind, Except.bind, pure, Except.pure] at h
        injection h with h
        subst h
        obtain ⟨h1, h2⟩ := hf x v' hs.1 hv
        obtain ⟨h3, h4⟩ := ih rest' hs.2 (by rw [← List.mapM'_eq_mapM]; exact hr)
        constructor
        · simp only [PVal.stripL]
          rw [h1, h3]
        · simp only [safePL, Bool.and_eq_true]
          exact ⟨h2, h4⟩

theorem wrapCovjson_strip (cov : Json) (w : PVal)
    (hsafe : safeJ cov = true) (h : wrapCovjson cov = .ok w) :
    PVal.strip w = cov ∧ safeP w = true := by
  cases cov with
  | obj kvs =>
    simp only [safeJ, Bool.and_eq_true] at hsafe
    obtain ⟨hnd, hskv⟩ := hsafe
    simp only [wrapCovjson, jLookupE] at h
    cases hdo : jLookup "domain" kvs with
    | none =>
      rw [hdo] at h
      simp [Bind.bind, Except.bind] at h
    | some domainJ =>
    rw [hdo] at h
    simp only [Bind.bind, Except.bind] at h
    have hsdom : safeJ domainJ = true := jLookup_safe "domain" kvs domainJ hskv hdo
    cases domainJ with
    | obj dkvs =>
      dsimp only at h
      simp only [safeJ, Bool.and_eq_true] at hsdom
      obtain ⟨hnd_d, hskv_d⟩ := hsdom
      cases hax : jLookup "axes" dkvs with
      | none =>
        rw [hax] at h
        simp [Bind.bind, Except.bind] at h
      | some axesJ =>
      rw [hax] at h
      simp only [Bind.bind, Except.bind] at h
      have hsax : safeJ axesJ = true := jLookup_safe "axes" dkvs axesJ hskv_d hax
      cases axesJ with
      | obj akvs =>
        dsimp only at h
        simp only [safeJ, Bool.and_eq_true] at hsax
        obtain ⟨hnd_a, hskv_a⟩ := hsax
        cases hwa : wrapDictVals wrapAxis akvs with
        | error e =>
          rw [hwa] at h
          simp [Bind.bind, Except.bind] at h
        | ok axes' =>
        rw [hwa] at h
        simp only [Bind.bind, Except.bind] at h
        obtain ⟨hstrip_a, hsafe_a⟩ :=
          wrapDictVals_strip wrapAxis wrapAxis_strip akvs axes' hskv_a hwa
        cases hre : jLookup "referencing" dkvs with
        | none =>
          rw [hre] at h
          simp [Bind.bind, Except.bind] at h
        | some refsJ =>
        rw [hre] at h
        simp only [Bind.bind, Except.bind] at h
        have hsref : safeJ refsJ = true :=
          jLookup_safe "referencing" dkvs refsJ hskv_d hre
        cases refsJ with
        | arr refsL =>
          dsimp only at h
          simp only [safeJ] at hsref
          cases hwr : refsL.mapM wrapRef with
          | error e =>
            rw [hwr] at h
            simp [Bind.bind, Except.bind] at h
          | ok refs' =>
          rw [hwr] at h
          simp only [Bind.bind, Except.bind] at h
          obtain ⟨hstrip_r, hsafe_r⟩ :=
            mapM_wrap_strip wrapRef wrapRef_strip refsL refs' hsref hwr
          cases hra : jLookup "ranges" kvs with
          | none =>
            rw [hra] at h
            simp [Bind.bind, Except.bind] at h
          | some rangesJ =>
          rw [hra] at h
          simp only [Bind.bind, Except.bind] at h
          have hsran : safeJ rangesJ = true :=
            jLookup_safe "ranges" kvs rangesJ hskv hra
          cases rangesJ with
          | obj rkvs =>
            dsimp only at h
            simp only [safeJ, Bool.and_eq_true] at hsran
            obtain ⟨hnd_r, hskv_r⟩ := hsran
            cases hwg : wrapDictVals wrapRange rkvs with
            | error e =>
              rw [hwg] at h
              simp [Bind.bind, Except.bind] at h
            | ok ranges' =>
            rw [hwg] at h
            simp only [Bind.bind, Except.bind] at h
            obtain ⟨hstrip_g, hsafe_g⟩ :=
              wrapDictVals_strip wrapRange wrapRange_strip rkvs ranges'
                hskv_r hwg
            injection h with h
            subst h
            have hsd1 :
                PVal.stripKV (setP "axes" (.pobj axes') (toPDict dkvs)) =
                  dkvs := by
              rw [stripKV_setP "axes" (.pobj axes') (toPDict dkvs)
                  (by rw [toPDict_keys]; exact hnd_d)
                  (by rw [stripKV_toPDict]
                      simp only [PVal.strip]
                      rw [hstrip_a]
                      exact hax),
                stripKV_toPDict]
            have hkd1 :
                (setP "axes" (.pobj axes')
                    (toPDict dkvs)).map Prod.fst =
                  dkvs.map Prod.fst := by
              rw [setP_keys, toPDict_keys]
            have hsd2 :
                PVal.stripKV (setP "referencing" (.parr refs')
                    (setP "axes" (.pobj axes') (toPDict dkvs))) =
                  dkvs := by
              rw [stripKV_setP "referencing" (.parr refs') _
                  (by rw [hkd1]; exact hnd_d)
                  (by rw [hsd1]
                      simp only [PVal.strip]
                      rw [hstrip_r]
                      exact hre),
                hsd1]
            have hdomstrip :
                PVal.strip (.pobj (setP "referencing" (.parr refs')
                    (setP "axes" (.pobj axes') (toPDict dkvs)))) =
                  .obj dkvs := by
              simp only [PVal.strip]
              rw [hsd2]
            have hdomsafe :
                safeP (.pobj (setP "referencing" (.parr refs')
                    (setP "axes" (.pobj axes') (toPDict dkvs)))) = true := by
              simp only [safeP, Bool.and_eq_true]
              refine ⟨by rw [setP_keys, hkd1]; exact hnd_d, ?_⟩
              apply safePKV_setP _ _ (by simp only [safeP]; exact hsafe_r)
              apply safePKV_setP _ _ ?_ _ (safePKV_toPDict dkvs hskv_d)
              simp only [safeP, Bool.and_eq_true]
              refine ⟨?_, hsafe_a⟩
              rw [← stripKV_keys axes', hstrip_a]
              exact hnd_a
            have hs1 :
                PVal.stripKV (setP "domain"
                    (.pobj (setP "referencing" (.parr refs')
                      (setP "axes" (.pobj axes') (toPDict dkvs))))
                    (toPDict kvs)) =
                  kvs := by
              rw [stripKV_setP "domain" _ (toPDict kvs)
                  (by rw [toPDict_keys]; exact hnd)
                  (by rw [stripKV_toPDict, hdomstrip]; exact hdo),
                stripKV_toPDict]
            have hk1 :
                (setP "domain"
                    (.pobj (setP "referencing" (.parr refs')
                      (setP "axes" (.pobj axes') (toPDict dkvs))))
                    (toPDict kvs)).map Prod.fst =
                  kvs.map Prod.fst := by
              rw [setP_keys, toPDict_keys]
            have hs2 :
                PVal.stripKV (setP "ranges" (.pobj ranges')
                    (setP "domain"
                      (.pobj (setP "referencing" (.parr refs')
                        (setP "axes" (.pobj axes') (toPDict dkvs))))
                      (toPDict kvs))) =
                  kvs := by
              rw [stripKV_setP "ranges" (.pobj ranges') _
                  (by rw [hk1]; exact hnd)
                  (by rw [hs1]
                      simp only [PVal.strip]
                      rw [hstrip_g]
                      exact hra),
                hs1]
            constructor
            · simp only [PVal.strip]
              rw [hs2]
            · simp only [safeP, Bool.and_eq_true]
              refine ⟨by rw [setP_keys, hk1]; exact hnd, ?_⟩
              apply safePKV_setP _ _ ?_ _ ?_
              · simp only [safeP, Bool.and_eq_true]
                refine ⟨?_, hsafe_g⟩
                rw [← stripKV_keys ranges', hstrip_g]
                exact hnd_r
              · apply safePKV_setP _ _ hdomsafe _
                  (safePKV_toPDict kvs hskv)
          | null =>
            simp [Bind.bind, Except.bind] at h
          | bool b =>
            simp [Bind.bind, Except.bind] at h
          | num n =>
            simp [Bind.bind, Except.bind] at h
          | str s =>
            simp [Bind.bind, Except.bind] at h
          | arr xs =>
            simp [Bind.bind, Except.bind] at h
        | null => cases h
        | bool b => cases h
        | num n => cases h
        | str s => cases h
        | obj o => cases h
      | null => cases h
      | bool b => cases h
      | num n => cases h
      | str s => cases h
      | arr xs => cases h
    | null => cases h
    | bool b => cases h
    | num n => cases h
    | str s => cases h
    | arr xs => cases h
  | null => simp [wrapCovjson] at h
  | bool b => simp [wrapCovjson] at h
  | num n => simp [wrapCovjson] at h
  | str s => simp [wrapCovjson] at h
  | arr xs => simp [wrapCovjson] at h

theorem nodupCL_inj (ks : Nat → List Char) :
    ∀ L : List Nat, L.Nodup → nodupCL (L.map ks) = true →
      ∀ i ∈ L, ∀ j ∈ L, ks i = ks j → i = j := by
  intro L
  induction L with
  | nil =>
    intro _ _ i hi
    simp at hi
  | cons a L ih =>
    intro hnd hcl i hi j hj he
    simp only [List.map_cons, nodupCL, Bool.and_eq_true,
      Bool.not_eq_true'] at hcl
    simp only [List.nodup_cons] at hnd
    simp only [List.mem_cons] at hi hj
    rcases hi with rfl | hi
    · rcases hj with rfl | hj
      · rfl
      · exfalso
        have hm : ks i ∈ L.map ks := List.mem_map.mpr ⟨j, hj, he.symm⟩
        have hc : (L.map ks).contains (ks i) = true := by simpa using hm
        rw [hcl.1] at hc
        cases hc
    · rcases hj with rfl | hj
      · exfalso
        have hm : ks j ∈ L.map ks := List.mem_map.mpr ⟨i, hi, he⟩
        have hc : (L.map ks).contains (ks j) = true := by simpa using hm
        rw [hcl.1] at hc
        cases hc
      · exact ih hnd.2 hcl.2 i hi j hj he

theorem keysOKd_sound (ks : Nat → List Char) (n : Nat)
    (h : keysOKd ks n = true) : keysOK ks n := by
  simp only [keysOKd, Bool.and_eq_true] at h
  constructor
  · intro i hi
    have ha := h.1
    simp only [List.all_eq_true] at ha
    have hk := ha i (by simpa [List.mem_range] using hi)
    simp only [keyOKb, Bool.and_eq_true] at hk
    exact ⟨by simpa using hk.1, hk.2⟩
  · intro i j hi hj he
    exact nodupCL_inj ks (List.range n) (List.nodup_range n) h.2
      i (by simpa [List.mem_range] using hi)
      j (by simpa [List.mem_range] using hj) he

/-- C1: for every well-formed Coverage mapping accepted by the non-tiled save
path (`_save_covjson` then `save_json` with `CustomEncoder`, write.py lines
187-202 and 219-226), the write succeeds, and the text written to the output
file is syntactically valid JSON that a standard JSON parser reads back as
exactly the Coverage mapping as it was before the compact/no-indent marker
wrapping. -/
theorem c1_save_covjson_roundtrip (cov : Json) (w : PVal)
    (ks : Nat → List Char) (path : String) (fuel : Nat)
    (hsafe : safeJ cov = true)
    (hwrap : wrapCovjson cov = .ok w)
    (hks : keysOKd ks (numC w) = true)
    (hfuel : psize w ≤ fuel) :
    save_covjson cov ks path = .ok (path, encodeCustom ks w) ∧
    pVal fuel (encodeCustom ks w) = some (cov, []) := by
  obtain ⟨hstrip, hsafeP⟩ := wrapCovjson_strip cov w hsafe hwrap
  constructor
  · simp only [save_covjson, save_json, Bind.bind, Except.bind, hwrap]
  · rw [encodeCustom_eq_mrP ks w (keysOKd_sound ks (numC w) hks) hsafeP]
    have hp := (prtP fuel).1 (.ind 0) w [] hfuel rfl
    rw [List.append_nil] at hp
    rw [hp, hstrip]

theorem c1_save_covjson_roundtrip_witness :
    safeJ covDemo = true ∧ wrapCovjson covDemo = .ok covDemoW ∧
    keysOKd ksDemo (numC covDemoW) = true ∧ psize covDemoW ≤ 95 ∧
    (save_covjson covDemo ksDemo "out.covjson" =
        .ok ("out.covjson", encodeCustom ksDemo covDemoW) ∧
      pVal 95 (encodeCustom ksDemo covDemoW) = some (covDemo, [])) :=
  ⟨by decide, rfl, by decide, by decide,
    c1_save_covjson_roundtrip covDemo covDemoW ksDemo "out.covjson" 95
      (by decide) rfl (by decide) (by decide)⟩

/-- C7: a value marked compact by `Writer.compact` (write.py lines 234-236)
is pre-rendered by `CustomEncoder.default` (lines 258-264) with separators
`(',', ':')`; whatever the surrounding mode (so at any nesting depth of the
indented document), its rendered text in the final output contains no
whitespace at all when its strings are whitespace-free — in particular no
space after any `,` or `:`. -/
theorem c7_compact_no_whitespace (m : Mode) (v : Json)
    (h : wsFreeJ v = true) :
    noWs (mrP m (.pcustom true v)) = true := by
  have he : mrP m (.pcustom true v) = rJ .compact v := by
    cases m <;> rfl
  rw [he]
  exact (rJ_compact_noWs (jsize v)).1 v le_rfl h

theorem c7_compact_no_whitespace_witness :
    wsFreeJ jDemo = true ∧
    noWs (mrP (.ind 0) (.pcustom true jDemo)) = true :=
  ⟨by decide, c7_compact_no_whitespace (.ind 0) jDemo (by decide)⟩

/-- C10: the serialized text `CustomEncoder.encode` produces (write.py lines
258-270) does not depend on the randomly drawn `uuid4().hex` placeholder
keys: any two admissible key streams give identical output text, because
every placeholder's quoted form is replaced by the marked subvalue's
pre-rendered text before the result is returned. -/
theorem c10_fresh_keys_no_influence (ks1 ks2 : Nat → List Char) (v : PVal)
    (h1 : keysOKd ks1 (numC v) = true) (h2 : keysOKd ks2 (numC v) = true)
    (hsafe : safeP v = true) :
    encodeCustom ks1 v = encodeCustom ks2 v := by
  rw [encodeCustom_eq_mrP ks1 v (keysOKd_sound ks1 (numC v) h1) hsafe,
      encodeCustom_eq_mrP ks2 v (keysOKd_sound ks2 (numC v) h2) hsafe]

theorem c10_fresh_keys_no_influence_witness :
    keysOKd ksDemo (numC pDemo) = true ∧
    keysOKd ksDemo2 (numC pDemo) = true ∧ safeP pDemo = true ∧
    encodeCustom ksDemo pDemo = encodeCustom ksDemo2 pDemo :=
  ⟨by decide, by decide, by decide,
    c10_fresh_keys_no_influence ksDemo ksDemo2 pDemo (by decide) (by decide)
      (by decide)⟩
